import Mathlib

/-!
# vshell: a verification development for `src/main.c`

The C program is embedded shallowly.

* Memory is a total map from addresses to byte values.  A `char` store keeps the
  value it is given; a pointer store (`write_u64`) lays the value out in eight
  little-endian bytes and a pointer load (`read_u64`) reads them back.
* `u64` fields of the arena wrap modulo `2 ^ 64`.  Byte counters that only
  count bytes delivered by `read` (`line.size`, loop indices) are natural
  numbers: they would need `2 ^ 64` input bytes to wrap.
* The blocking `read` system call is an oracle: a list of outcomes, consumed
  from the front, one per call.
* Loops whose termination is not evident (`while (1)`, `while (true)`,
  `do ... while`) take a step budget and report when it runs out
  (`none`, `Ret.out_of_fuel`); `read_line_loop_total` and `split_loop_budget`
  show that the budgets the loop driver uses are enough.
* The loop driver sees the word sequence through the strings its pointers
  point to; what the operating system does in one iteration (`fork`,
  `execvp`, `waitpid`, `setenv`) is a record of return values.  The expansion
  loop is also given on the pointer cells in memory (`expand_loop`), and
  `expand_loop_refines` relates the two.
* `writev` is an oracle like `read`.  An iovec entry carries the bytes found at
  its `iov_base`; the array is a map from indices to entries that goes on past
  the end of the array, so that reads beyond it show.
-/

namespace VShell

/-! ## Memory -/

/-- Byte-addressed memory: the value stored at every address. -/
abbrev Mem := Nat → Nat

/-- Store of one byte: `p[0] = v`. -/
def write_u8 (mem : Mem) (addr v : Nat) : Mem :=
  fun x => if x = addr then v else mem x

/-- Store of a block of bytes at `addr` (what a successful `read` does). -/
def write_bytes (mem : Mem) (addr : Nat) (bs : List Nat) : Mem :=
  fun x => if addr ≤ x ∧ x < addr + bs.length then bs.getD (x - addr) 0 else mem x

/-- The `n` bytes found at `addr`. -/
def read_bytes (mem : Mem) (addr n : Nat) : List Nat :=
  (List.range n).map (fun i => mem (addr + i))

/-- Store of a pointer-sized value, little endian, eight bytes. -/
def write_u64 (mem : Mem) (addr v : Nat) : Mem :=
  fun x => if addr ≤ x ∧ x < addr + 8 then (v / 256 ^ (x - addr)) % 256 else mem x

/-- Load of a pointer-sized value, little endian, eight bytes. -/
def read_u64 (mem : Mem) (addr : Nat) : Nat :=
  mem addr % 256 + (mem (addr + 1) % 256) * 256 ^ 1 + (mem (addr + 2) % 256) * 256 ^ 2
    + (mem (addr + 3) % 256) * 256 ^ 3 + (mem (addr + 4) % 256) * 256 ^ 4
    + (mem (addr + 5) % 256) * 256 ^ 5 + (mem (addr + 6) % 256) * 256 ^ 6
    + (mem (addr + 7) % 256) * 256 ^ 7

/-- The C string at `p`: the bytes before the first zero byte, looking at most
`fuel` bytes ahead (`none` when no zero byte is found among them). -/
def c_string (mem : Mem) : Nat → Nat → Option (List Nat)
  | 0, _ => none
  | fuel + 1, p =>
    if mem p = 0 then some []
    else (c_string mem fuel (p + 1)).map (fun s => mem p :: s)

/-- The pointers stored from `p` on, up to the first null pointer, looking at
most `fuel` entries ahead. -/
def pointer_list (mem : Mem) : Nat → Nat → Option (List Nat)
  | 0, _ => none
  | fuel + 1, p =>
    if read_u64 mem p = 0 then some []
    else (pointer_list mem fuel (p + 8)).map (fun ps => read_u64 mem p :: ps)

/-! ## Arena (`main.c` 52-89) -/

/-- The `Arena` struct: `base` pointer, `used` offset, `size` capacity. -/
structure Arena where
  base : Nat
  used : Nat
  size : Nat
  deriving DecidableEq, Repr

/-- Two to the 64: `u64` arithmetic wraps at this value. -/
def U64 : Nat := 2 ^ 64

/-- `arena_init`: `mmap_result` is what `mmap` returned (`none` for
`MAP_FAILED`, in which case the program writes a diagnostic and exits). -/
def arena_init (mmap_result : Option Nat) (size : Nat) : Option Arena :=
  match mmap_result with
  | none => none
  | some base => some { base := base, used := 0, size := size }

/-- `arena_push`: returns `base + used` and advances `used` by `size`. -/
def arena_push (arena : Arena) (size : Nat) : Nat × Arena :=
  (arena.base + arena.used, { arena with used := (arena.used + size) % U64 })

/-- `arena_end`: the frontier pointer `base + used`. -/
def arena_end (arena : Arena) : Nat :=
  arena.base + arena.used

/-- `arena_align`: `used = (used + 0xF) & ~0xFull`. -/
def arena_align (arena : Arena) : Arena :=
  { arena with used := ((arena.used + 0xF) % U64) &&& 0xFFFFFFFFFFFFFFF0 }

/-! ## Line reader (`main.c` 44-50, 91-127) -/

/-- What one call of the `read` system call does. -/
inductive ReadOutcome where
  /-- returns -1 with `errno == EINTR` -/
  | interrupted
  /-- returns -1 with another `errno` -/
  | failed
  /-- stores these bytes and returns their number (no bytes: end-of-stream) -/
  | data (bs : List Nat)
  deriving DecidableEq, Repr

/-- `read_looped(fd, buf, count)`: retries while interrupted.  Returns the
result of `read` (`-1`, or the number of bytes stored), the memory after the
call and the outcomes left for later calls.  The kernel stores at most `count`
bytes; an exhausted oracle is a closed stream. -/
def read_looped (buf count : Nat) (mem : Mem) : List ReadOutcome → Int × Mem × List ReadOutcome
  | [] => (0, mem, [])
  | ReadOutcome.interrupted :: rest => read_looped buf count mem rest
  | ReadOutcome.failed :: rest => (-1, mem, rest)
  | ReadOutcome.data bs :: rest =>
    (((bs.take count).length : Nat), write_bytes mem buf (bs.take count), rest)

/-- The `Line` struct: `data` pointer and `size`. -/
structure Line where
  data : Nat
  size : Nat
  deriving DecidableEq, Repr

/-- How a call that may end the process comes back. -/
inductive Ret (α : Type) where
  /-- the function returned this value -/
  | ok (a : α)
  /-- the function called `exit(EXIT_FAILURE)` -/
  | exit_failure
  /-- the step budget of the model ran out -/
  | out_of_fuel

/-- The scan `for (u64 i = line.size; i < line.size + result; i++)` of
`read_line`, from index `i` with `n` indices left: the index of the first
newline among `line.data[i .. i + n)`. -/
def find_newline (mem : Mem) (data : Nat) : Nat → Nat → Option Nat
  | 0, _ => none
  | n + 1, i => if mem (data + i) = 10 then some i else find_newline mem data n (i + 1)

/-- State of `read_line` between two iterations of its `while (1)`. -/
structure ReadState where
  arena : Arena
  mem : Mem
  input : List ReadOutcome
  line : Line
  result : Int

/-- The `while (1)` loop of `read_line`. -/
def read_line_loop (read_size : Nat) : Nat → ReadState → Ret (Line × Arena × Mem × List ReadOutcome)
  | 0, _ => Ret.out_of_fuel
  | fuel + 1, s =>
    let arena := (arena_push s.arena (s.result.toNat)).2
    let arena := arena_align arena
    let (result, mem, input) := read_looped s.line.data read_size s.mem s.input
    if result = -1 then Ret.exit_failure
    else if result = 0 then Ret.ok (s.line, arena, mem, input)
    else
      match find_newline mem s.line.data result.toNat s.line.size with
      | some i => Ret.ok ({ s.line with size := i + 1 }, arena, mem, input)
      | none =>
        read_line_loop read_size fuel
          { arena := arena, mem := mem, input := input,
            line := { s.line with size := s.line.size + result.toNat }, result := result }

/-- `read_line(arena, read_size)`. -/
def read_line (fuel : Nat) (arena : Arena) (read_size : Nat) (mem : Mem)
    (input : List ReadOutcome) : Ret (Line × Arena × Mem × List ReadOutcome) :=
  read_line_loop read_size fuel
    { arena := arena, mem := mem, input := input,
      line := { data := arena_end arena, size := 0 }, result := read_size }

/-- What the caller of `read_line` has after the call: the Line returned, the
bytes `line.data[0 .. line.size)`, the arena and the part of the stream that
has not been read. -/
def returned_line :
    Ret (Line × Arena × Mem × List ReadOutcome) → Ret (Line × List Nat × Arena × List ReadOutcome)
  | Ret.ok (line, arena, mem, input) =>
    Ret.ok (line, read_bytes mem line.data line.size, arena, input)
  | Ret.exit_failure => Ret.exit_failure
  | Ret.out_of_fuel => Ret.out_of_fuel

/-! ## Tokenizer (`main.c` 129-161) -/

/-- `is_space`: space, tab or newline. -/
def is_space (c : Nat) : Bool :=
  c = 32 || c = 9 || c = 10

/-- The test `is_space(line.data[i]) || line.data[i] == '"'` of `split`. -/
def is_delimiter (c : Nat) : Bool :=
  is_space c || c = 34

/-- `add_word(arena, line, start, end)`: pushes one pointer cell, stores
`&line.data[start]` in it, then stores `'\0'` at `line.data[end]`. -/
def add_word (arena : Arena) (mem : Mem) (line : Line) (start stop : Nat) : Arena × Mem :=
  let out := (arena_push arena 8).1
  let arena := (arena_push arena 8).2
  let mem := write_u64 mem out (line.data + start)
  let mem := write_u8 mem (line.data + stop) 0
  (arena, mem)

/-- The loop `while (word < line.size && is_space(line.data[word])) word++;`
with at most `n` steps left. -/
def skip_spaces (mem : Mem) (line : Line) : Nat → Nat → Nat
  | 0, word => word
  | n + 1, word =>
    if word < line.size ∧ is_space (mem (line.data + word)) then
      skip_spaces mem line n (word + 1)
    else word

/-- The loop `for (u64 i = word; i < line.size; i++)` of `split`, from `i` with
at most `n` steps left: the index at which it breaks, `none` when it runs to
`line.size` without finding a delimiter. -/
def find_delimiter (mem : Mem) (line : Line) : Nat → Nat → Option Nat
  | 0, _ => none
  | n + 1, i =>
    if i < line.size then
      if is_delimiter (mem (line.data + i)) then some i
      else find_delimiter mem line n (i + 1)
    else none

/-- The `while (true)` loop of `split`, entered with the given `word`. -/
def split_loop (line : Line) : Nat → Nat → Arena → Mem → Option (Arena × Mem)
  | 0, _, _, _ => none
  | fuel + 1, word, arena, mem =>
    let word := skip_spaces mem line (line.size - word) word
    if word = line.size then some (arena, mem)
    else
      match find_delimiter mem line (line.size - word) word with
      | some i =>
        split_loop line fuel (i + 1) (add_word arena mem line word i).1
          (add_word arena mem line word i).2
      | none => split_loop line fuel word arena mem

/-- `split(arena, line)`: the returned `char**`, the arena and the memory. -/
def split (fuel : Nat) (arena : Arena) (mem : Mem) (line : Line) : Option (Nat × Arena × Mem) :=
  let result := arena_end arena
  match split_loop line fuel 0 arena mem with
  | none => none
  | some (arena, mem) =>
    some (result, (arena_push arena 8).2, write_u64 mem (arena_push arena 8).1 0)

/-- The C strings at the given pointers. -/
def c_strings (mem : Mem) (fuel : Nat) : List Nat → Option (List (List Nat))
  | [] => some []
  | p :: ps =>
    match c_string mem fuel p, c_strings mem fuel ps with
    | some w, some ws => some (w :: ws)
    | _, _ => none

/-- The strings a returned word sequence points to: the pointers stored at
`words` up to the null pointer, each read as a C string. -/
def word_strings (mem : Mem) (fuel : Nat) (words : Nat) : Option (List (List Nat)) :=
  match pointer_list mem fuel words with
  | none => none
  | some ps => c_strings mem fuel ps

/-- Maximal runs of non-whitespace bytes, in order: the pieces between
whitespace bytes, without the empty ones. -/
def maximal_runs (bs : List Nat) : List (List Nat) :=
  (bs.splitOnP is_space).filter (fun w => !w.isEmpty)

/-! ## Exit status text (`main.c` 199-209) -/

/-- The `do ... while (code > 0)` loop of `exit_code_to_str`:
`storage[--index] = code % 10 + '0'; code /= 10;`. -/
def exit_code_loop (storage : Nat) : Nat → Int → Int → Mem → Option (Int × Mem)
  | 0, _, _, _ => none
  | fuel + 1, code, index, mem =>
    let index := index - 1
    let mem := write_u8 mem ((storage : Int) + index).toNat (((code.tmod 10 + 48) % 256).toNat)
    let code := code.tdiv 10
    if code > 0 then exit_code_loop storage fuel code index mem
    else some (index, mem)

/-- `exit_code_to_str(code, storage)`: `storage` is the address of the caller's
`char storage[4]`.  Returns the pointer `storage + index` and the memory. -/
def exit_code_to_str (fuel : Nat) (code : Int) (storage : Nat) (mem : Mem) : Option (Nat × Mem) :=
  let mem := write_u8 mem (storage + 4) 0
  match exit_code_loop storage fuel code 3 mem with
  | none => none
  | some (index, mem) => some (((storage : Int) + index).toNat, mem)

/-! ## Loop driver (`main.c` 193-197, 211-261) -/

/-- The bytes of a string literal. -/
def bytes (s : String) : List Nat :=
  s.data.map Char.toNat

/-- The environment-variable store, as `getenv` sees it: a lookup from names
to optional values. -/
abbrev Env := List Nat → Option (List Nat)

/-- The store after a successful `setenv(name, value, true)`. -/
def setenv (env : Env) (name value : List Nat) : Env :=
  fun n => if n = name then some value else env n

/-- The expansion loop of `main`,
`for (char** i = words + 1; *i != NULL; i++) if (**i == '$') ...`, over the
strings the argument pointers point to: a word whose first byte is `$` becomes
the string `getenv(*i + 1)` points to, or `""` when `getenv` returns `NULL`. -/
def expand_args (env : Env) : List (List Nat) → List (List Nat)
  | [] => []
  | w :: rest =>
    (if w.head? = some 36 then
      match env w.tail with
      | some v => v
      | none => []
    else w) :: expand_args env rest

/-- `WIFEXITED(status)` as glibc defines it: `(status & 0x7f) == 0`. -/
def WIFEXITED (status : Nat) : Bool :=
  status &&& 0x7f = 0

/-- `WEXITSTATUS(status)` as glibc defines it: `(status & 0xff00) >> 8`. -/
def WEXITSTATUS (status : Nat) : Nat :=
  (status &&& 0xff00) >>> 8

/-- What the operating system does during one iteration of the loop. -/
structure Sys where
  /-- return value of `fork` in the modelled process -/
  fork_result : Int
  /-- whether `execvp` returned (it returns only when it failed) -/
  execvp_returned : Bool
  /-- return value of `waitpid` -/
  waitpid_result : Int
  /-- the value a successful `waitpid` stores in `status` -/
  waitpid_status : Nat
  /-- the indeterminate value of the uninitialised `status` -/
  status_garbage : Nat
  /-- address of the local `char storage[4]` -/
  storage : Nat
  /-- return value of `setenv` -/
  setenv_result : Int

/-- State of the interpreter at the top of `while (1)`. -/
structure Shell where
  arena : Arena
  mem : Mem
  input : List ReadOutcome
  env : Env

/-- What the interpreter does to the outside world. -/
inductive Event where
  /-- `print_prompt` wrote this text to standard output -/
  | prompt (text : List Nat)
  /-- `fork()` was called -/
  | fork
  /-- `execvp(words[0], words)` was called with this file and argument vector -/
  | exec (file : List Nat) (argv : List (List Nat))
  /-- `waitpid` was called -/
  | wait
  /-- `setenv(name, value, true)` was called -/
  | setenv (name value : List Nat)
  /-- `process_failure(command, operation)` was called -/
  | process_failure (command operation : List Nat)
  deriving DecidableEq, Repr

/-- How one iteration of `while (1)` ends. -/
inductive Step where
  /-- control is back at the top of the loop, in this state -/
  | next (s : Shell)
  /-- `break`: `main` returns 0 -/
  | finished
  /-- `read_line` ended the interpreter with `exit(EXIT_FAILURE)` -/
  | exit_failure
  /-- in the forked child: `execvp` replaced the process image -/
  | child_replaced
  /-- in the forked child: `execvp` failed and the child called
  `exit(EXIT_FAILURE)` -/
  | child_exit_failure
  /-- the iteration never ends (the step budget of a loop ran out) -/
  | stuck

/-- Lines 248-257 of `main`, in the parent after a successful `fork`. -/
def wait_child (sys : Sys) (s : Shell) (command : List Nat) : List Event × Step :=
  let failed := sys.waitpid_result = -1
  let status := if failed then sys.status_garbage else sys.waitpid_status
  let ev := Event.wait :: (if failed then [Event.process_failure command (bytes "wait")] else [])
  if WIFEXITED status then
    match exit_code_to_str 11 (WEXITSTATUS status) sys.storage s.mem with
    | none => (ev, Step.stuck)
    | some (exit_code, mem) =>
      match c_string mem 8 exit_code with
      | none => (ev, Step.stuck)
      | some text =>
        if sys.setenv_result = -1 then
          (ev ++ [Event.setenv [63] text, Event.process_failure command (bytes "set exit code")],
            Step.next { s with mem := mem })
        else
          (ev ++ [Event.setenv [63] text],
            Step.next { s with mem := mem, env := setenv s.env [63] text })
  else (ev, Step.next s)

/-- Lines 222-257 of `main`: what the loop does with a line of non-zero size. -/
def dispatch (sys : Sys) (s : Shell) (line : Line) : List Event × Step :=
  match split (line.size + 1) s.arena s.mem line with
  | none => ([], Step.stuck)
  | some (words, arena, mem) =>
    let s := { s with arena := arena, mem := mem }
    if read_u64 mem words = 0 then ([], Step.next s)
    else
      match word_strings mem (line.size + 1) words with
      | none => ([], Step.stuck)
      | some [] => ([], Step.stuck)
      | some (command :: args) =>
        let argv := command :: expand_args s.env args
        if sys.fork_result = -1 then
          ([Event.fork, Event.process_failure command (bytes "fork")], Step.next s)
        else if sys.fork_result = 0 then
          if sys.execvp_returned then
            ([Event.fork, Event.exec command argv,
              Event.process_failure command (bytes "execute")], Step.child_exit_failure)
          else ([Event.fork, Event.exec command argv], Step.child_replaced)
        else
          (Event.fork :: (wait_child sys s command).1, (wait_child sys s command).2)

/-- `print_prompt`: writes `$PS1`, or `"$ "` when `PS1` is unset, to standard
output. -/
def print_prompt (env : Env) : Event :=
  match env (bytes "PS1") with
  | some ps1 => Event.prompt ps1
  | none => Event.prompt (bytes "$ ")

/-- One iteration of the `while (1)` of `main`. -/
def main_iteration (sys : Sys) (s : Shell) : List Event × Step :=
  match read_line (s.input.length + 1) s.arena 4096 s.mem s.input with
  | Ret.exit_failure => ([print_prompt s.env], Step.exit_failure)
  | Ret.out_of_fuel => ([print_prompt s.env], Step.stuck)
  | Ret.ok (line, arena, mem, input) =>
    if line.size = 0 then ([print_prompt s.env], Step.finished)
    else
      (print_prompt s.env ::
          (dispatch sys { s with arena := arena, mem := mem, input := input } line).1,
        (dispatch sys { s with arena := arena, mem := mem, input := input } line).2)

/-- The value of the exit-status variable `?` in the state an iteration leaves
(`none` when the iteration does not come back to the top of the loop). -/
def exit_status_after (step : Step) : Option (Option (List Nat)) :=
  match step with
  | Step.next s => some (s.env [63])
  | _ => none

/-! ## Diagnostics (`main.c` 22-42, 179-191) -/

/-- A `struct iovec`, its `iov_base` seen through the bytes found there. -/
structure Iovec where
  iov_base : List Nat
  iov_len : Nat
  deriving DecidableEq, Repr

/-- What one call of the `writev` system call does. -/
inductive WritevOutcome where
  /-- returns -1 -/
  | failed
  /-- writes at most `n` of the bytes it is offered and returns their number -/
  | wrote (n : Nat)
  deriving DecidableEq, Repr

/-- The value of `EINTR` in `<errno.h>` on Linux. -/
def EINTR : Int := 4

/-- The bytes `writev(fd, iov, n)` is offered: the first `iov_len` bytes at each
`iov_base`, for the `n` entries from index `i` on. -/
def gather (iov : Nat → Iovec) : Nat → Nat → List Nat
  | 0, _ => []
  | n + 1, i => (iov i).iov_base.take (iov i).iov_len ++ gather iov n (i + 1)

/-- State of `writev_looped`.  `iov` is the memory at and after the start of
the array, entry by entry (the entries past the end of the array are whatever
follows it in memory); `index` is where the pointer `iov` points. -/
structure WritevState where
  iov : Nat → Iovec
  index : Nat
  iovcnt : Int
  results : List WritevOutcome
  /-- the bytes written to the descriptor so far -/
  sent : List Nat
  /-- the indices of the entries whose `iov_len` the function read or wrote -/
  touched : List Nat

/-- `writev(fd, iov, iovcnt)`: the value returned and the state after the call.
An exhausted oracle stands for a kernel that writes all it is offered. -/
def writev (s : WritevState) : Int × WritevState :=
  match s.results with
  | [] =>
    (((gather s.iov s.iovcnt.toNat s.index).length : Nat),
      { s with sent := s.sent ++ gather s.iov s.iovcnt.toNat s.index })
  | WritevOutcome.failed :: rest => (-1, { s with results := rest })
  | WritevOutcome.wrote n :: rest =>
    ((((gather s.iov s.iovcnt.toNat s.index).take n).length : Nat),
      { s with results := rest,
               sent := s.sent ++ (gather s.iov s.iovcnt.toNat s.index).take n })

/-- The loop `while (result >= iov->iov_len) { result -= iov->iov_len; iov++;
iovcnt--; }`; returns what is left of `result`. -/
def skip_written : Nat → Nat → WritevState → Option (Nat × WritevState)
  | 0, _, _ => none
  | fuel + 1, result, s =>
    if result ≥ (s.iov s.index).iov_len then
      skip_written fuel (result - (s.iov s.index).iov_len)
        { s with index := s.index + 1, iovcnt := s.iovcnt - 1,
                 touched := s.touched ++ [s.index] }
    else some (result, { s with touched := s.touched ++ [s.index] })

/-- The statement `if (iovcnt > 0) iov->iov_len -= result;`. -/
def shorten (result : Nat) (s : WritevState) : WritevState :=
  if s.iovcnt > 0 then
    { s with
      iov := fun k =>
        if k = s.index then { s.iov k with iov_len := (s.iov k).iov_len - result } else s.iov k,
      touched := s.touched ++ [s.index] }
  else s

/-- The `while (iovcnt > 0)` loop of `writev_looped`; the boolean is the value
returned. -/
def writev_looped_loop : Nat → WritevState → Option (Bool × WritevState)
  | 0, _ => none
  | fuel + 1, s =>
    if s.iovcnt > 0 then
      if (writev s).1 = -1 then
        if (writev s).1 = EINTR then writev_looped_loop fuel (writev s).2
        else some (true, (writev s).2)
      else
        match skip_written (fuel + 1) (writev s).1.toNat (writev s).2 with
        | none => none
        | some (result, s1) => writev_looped_loop fuel (shorten result s1)
    else some (false, s)

/-- `writev_looped(fd, iov, iovcnt)`. -/
def writev_looped (fuel : Nat) (iov : Nat → Iovec) (iovcnt : Int)
    (results : List WritevOutcome) : Option (Bool × WritevState) :=
  writev_looped_loop fuel
    { iov := iov, index := 0, iovcnt := iovcnt, results := results, sent := [], touched := [] }

/-- `iov_string(s)` and `iov_slice(s)`: base `s`, length `strlen(s)` (the size
of the slice). -/
def iov_string (s : List Nat) : Iovec :=
  { iov_base := s, iov_len := s.length }

/-- A local array of entries, followed in memory by `beyond`. -/
def iov_array (entries : List Iovec) (beyond : Nat → Iovec) : Nat → Iovec :=
  fun k => if h : k < entries.length then entries[k] else beyond (k - entries.length)

/-- The array `iov[]` that `process_failure` builds; `error` is the text of
`strerror(errno)`. -/
def process_failure_iov (command operation error : List Nat) : List Iovec :=
  [iov_string (bytes "Error: Failed to "),
   iov_string operation,
   iov_string [32, 112, 114, 111, 103, 114, 97, 109, 32, 34],
   iov_string command,
   iov_string [34, 58, 32],
   iov_string error,
   iov_string [46, 10]]

/-- `process_failure(command, operation)`:
`writev_looped(STDERR_FILENO, iov, len(iov))`. -/
def process_failure (fuel : Nat) (command operation error : List Nat) (beyond : Nat → Iovec)
    (results : List WritevOutcome) : Option (Bool × WritevState) :=
  writev_looped fuel (iov_array (process_failure_iov command operation error) beyond) 7 results

/-! ## Environment expansion on the pointer cells (`main.c` 228-234) -/

/-- What `getenv` and the string literal `""` are at the level of pointers. -/
structure Getenv where
  /-- the pointer `getenv(name)` returns, 0 for `NULL` -/
  value : List Nat → Nat
  /-- the address of the string literal `""` -/
  empty : Nat

/-- The expansion loop of `main` on the memory that holds the word pointers,
from the cell at address `i`:
`for (; *i != NULL; i++) if (**i == '$') { *i = getenv(*i + 1); if (*i == NULL) *i = ""; }`.
Names are read as C strings of fewer than `n` bytes. -/
def expand_loop (env : Getenv) (n : Nat) : Nat → Nat → Mem → Option Mem
  | 0, _, _ => none
  | fuel + 1, i, mem =>
    if read_u64 mem i = 0 then some mem
    else if mem (read_u64 mem i) = 36 then
      match c_string mem n (read_u64 mem i + 1) with
      | none => none
      | some name =>
        expand_loop env n fuel (i + 8)
          (if read_u64 (write_u64 mem i (env.value name)) i = 0
            then write_u64 (write_u64 mem i (env.value name)) i env.empty
            else write_u64 mem i (env.value name))
    else expand_loop env n fuel (i + 8) mem

/-- The pointer an argument word is replaced by: `p` points to it and `w` is
the string there. -/
def expanded_pointer (env : Getenv) (p : Nat) (w : List Nat) : Nat :=
  if w.head? = some 36 then
    (if env.value w.tail = 0 then env.empty else env.value w.tail)
  else p

/-! ## Facts about memory -/

theorem read_write_u64 (mem : Mem) (a v : Nat) :
    read_u64 (write_u64 mem a v) a = v % 2 ^ 64 := by
  simp [read_u64, write_u64]
  omega

theorem read_u64_congr (m1 m2 : Mem) (a : Nat) (h : ∀ j, j < 8 → m1 (a + j) = m2 (a + j)) :
    read_u64 m1 a = read_u64 m2 a := by
  have h0 := h 0 (by omega)
  simp only [Nat.add_zero] at h0
  simp only [read_u64, h0, h 1 (by omega), h 2 (by omega), h 3 (by omega), h 4 (by omega),
    h 5 (by omega), h 6 (by omega), h 7 (by omega)]

theorem write_u64_other (mem : Mem) (a v x : Nat) (h : x < a ∨ a + 8 ≤ x) :
    write_u64 mem a v x = mem x := by
  have : ¬ (a ≤ x ∧ x < a + 8) := by omega
  simp [write_u64, this]

theorem write_u8_other (mem : Mem) (a v x : Nat) (h : x ≠ a) : write_u8 mem a v x = mem x := by
  simp [write_u8, h]

theorem write_u8_same (mem : Mem) (a v : Nat) : write_u8 mem a v a = v := by
  simp [write_u8]

theorem write_bytes_other (mem : Mem) (a : Nat) (bs : List Nat) (x : Nat)
    (h : x < a ∨ a + bs.length ≤ x) : write_bytes mem a bs x = mem x := by
  have : ¬ (a ≤ x ∧ x < a + bs.length) := by omega
  simp [write_bytes, this]

theorem write_bytes_at (mem : Mem) (a : Nat) (bs : List Nat) (i : Nat) (h : i < bs.length) :
    write_bytes mem a bs (a + i) = bs.getD i 0 := by
  have : a ≤ a + i ∧ a + i < a + bs.length := by omega
  simp [write_bytes, this]

theorem read_bytes_length (mem : Mem) (a n : Nat) : (read_bytes mem a n).length = n := by
  simp [read_bytes]

theorem read_bytes_write_bytes (mem : Mem) (a : Nat) (bs : List Nat) :
    read_bytes (write_bytes mem a bs) a bs.length = bs := by
  apply List.ext_getElem
  · simp [read_bytes]
  · intro i h1 h2
    simp only [read_bytes, List.getElem_map, List.getElem_range]
    rw [write_bytes_at mem a bs i h2, List.getD_eq_getElem _ _ h2]

/-! ## Facts about the arena -/

theorem and_align_mask (y : Nat) (hy : y < 2 ^ 64) :
    y &&& 0xFFFFFFFFFFFFFFF0 = y / 16 * 16 := by
  apply Nat.eq_of_testBit_eq
  intro i
  have h1 : (0xFFFFFFFFFFFFFFF0 : Nat) = 2 ^ 4 * (2 ^ 60 - 1) := by norm_num
  have h2 : y / 16 * 16 = 2 ^ 4 * (y >>> 4) := by
    rw [Nat.shiftRight_eq_div_pow]; ring
  rw [Nat.testBit_and, h1, h2, Nat.testBit_mul_pow_two, Nat.testBit_mul_pow_two,
    Nat.testBit_two_pow_sub_one, Nat.testBit_shiftRight]
  by_cases hi : i ≥ 4
  · have e : 4 + (i - 4) = i := by omega
    rw [e]
    by_cases h64 : i < 64
    · have : i - 4 < 60 := by omega
      simp [hi, this]
    · have hlt : y < 2 ^ i :=
        lt_of_lt_of_le hy (Nat.pow_le_pow_right (by norm_num) (by omega))
      have : y.testBit i = false := Nat.testBit_lt_two_pow hlt
      simp [this]
  · simp [hi]

theorem arena_align_used (arena : Arena) :
    (arena_align arena).used = (arena.used + 15) % U64 / 16 * 16 := by
  have hlt : (arena.used + 15) % U64 < 2 ^ 64 := Nat.mod_lt _ (by norm_num [U64])
  simp only [arena_align]
  exact and_align_mask _ hlt

/-- C10 (counterexample): `used <= size` is not preserved by every `arena_push`
nor by every `arena_align`: pushing 32 bytes on an empty arena of capacity 16
gives `used = 32`, and aligning `used = 17` in an arena of capacity 24 gives
`used = 32`. -/
theorem arena_invariant_broken :
    ¬ (∀ (arena : Arena) (n : Nat), arena.used ≤ arena.size →
        (arena_push arena n).2.used ≤ (arena_push arena n).2.size) ∧
    ¬ (∀ arena : Arena, arena.used ≤ arena.size →
        (arena_align arena).used ≤ (arena_align arena).size) := by
  constructor
  · intro h
    exact absurd (h ⟨4096, 0, 16⟩ 32 (by decide)) (by decide)
  · intro h
    exact absurd (h ⟨4096, 17, 24⟩ (by decide)) (by decide)

/-- C10 (amended): `used <= size` holds after `arena_init`; `arena_push` keeps
it when the request fits in what is left (`used + n <= size`); `arena_align`
keeps it when the capacity is a multiple of 16. -/
theorem arena_used_le_size :
    (∀ base size : Nat, ∃ arena, arena_init (some base) size = some arena ∧
        arena.used ≤ arena.size ∧ arena.size = size) ∧
    (∀ (arena : Arena) (n : Nat), arena.used + n ≤ arena.size →
        (arena_push arena n).2.used ≤ (arena_push arena n).2.size) ∧
    (∀ arena : Arena, arena.used ≤ arena.size → arena.size % 16 = 0 →
        (arena_align arena).used ≤ (arena_align arena).size) := by
  refine ⟨?_, ?_, ?_⟩
  · intro base size
    exact ⟨_, rfl, Nat.zero_le _, rfl⟩
  · intro arena n h
    simp only [arena_push]
    exact le_trans (Nat.mod_le _ _) h
  · intro arena h h16
    rw [arena_align_used]
    simp only [arena_align]
    have hm : (arena.used + 15) % U64 ≤ arena.used + 15 := Nat.mod_le _ _
    omega

theorem arena_used_le_size_witness :
    (arena_push ⟨4096, 16, 64⟩ 32).2.used ≤ (arena_push ⟨4096, 16, 64⟩ 32).2.size ∧
    (arena_align ⟨4096, 17, 64⟩).used ≤ (arena_align ⟨4096, 17, 64⟩).size :=
  ⟨arena_used_le_size.2.1 ⟨4096, 16, 64⟩ 32 (by decide),
   arena_used_le_size.2.2 ⟨4096, 17, 64⟩ (by decide) (by decide)⟩

/-! ## Exit status text -/

/-- C3 (failing input): for exit code 7 and a storage buffer whose four bytes
all hold `A`, the string `exit_code_to_str` returns is `7A`, not `7`: the
terminator is stored at `storage[4]` and the digits end at `storage[2]`, so the
untouched `storage[3]` is part of the string. -/
theorem exit_code_to_str_keeps_storage_byte :
    (exit_code_to_str 11 7 1000 (write_bytes (fun _ => 0) 1000 [65, 65, 65, 65])).map
      (fun r => (r.1, c_string r.2 8 r.1)) = some (1002, some [55, 65]) := by
  decide

/-! ## Facts about the line reader -/

theorem write_bytes_nil (mem : Mem) (a : Nat) : write_bytes mem a [] = mem := by
  funext x
  simp [write_bytes]

/-- What `read_looped` returns: -1 with memory untouched, or the length of a
block of at most `count` bytes that it stored at `buf`. -/
theorem read_looped_spec (buf count : Nat) (mem : Mem) (input : List ReadOutcome) :
    ((read_looped buf count mem input).1 = -1 ∧ (read_looped buf count mem input).2.1 = mem) ∨
    ∃ bs : List Nat, (read_looped buf count mem input).1 = (bs.length : Int) ∧
      bs.length ≤ count ∧ (read_looped buf count mem input).2.1 = write_bytes mem buf bs := by
  induction input with
  | nil => exact Or.inr ⟨[], by simp [read_looped], by simp, by simp [read_looped, write_bytes_nil]⟩
  | cons o rest ih =>
    cases o with
    | interrupted => simpa [read_looped] using ih
    | failed => exact Or.inl ⟨by simp [read_looped], by simp [read_looped]⟩
    | data bs =>
      refine Or.inr ⟨bs.take count, by simp [read_looped], ?_, by simp [read_looped]⟩
      simp [List.length_take]

theorem read_looped_rest_length (buf count : Nat) (mem : Mem) (input : List ReadOutcome) :
    input = [] ∨ (read_looped buf count mem input).2.2.length < input.length := by
  induction input with
  | nil => exact Or.inl rfl
  | cons o rest ih =>
    right
    cases o with
    | interrupted =>
      rcases ih with h | h
      · subst h; simp [read_looped]
      · simp only [read_looped, List.length_cons]; omega
    | failed => simp [read_looped]
    | data bs => simp [read_looped]

theorem find_newline_none (mem : Mem) (data : Nat) (n i : Nat)
    (h : ∀ j, j < n → mem (data + (i + j)) ≠ 10) : find_newline mem data n i = none := by
  induction n generalizing i with
  | zero => rfl
  | succ n ih =>
    have h0 := h 0 (by omega)
    simp only [Nat.add_zero] at h0
    simp only [find_newline, h0, if_false]
    apply ih
    intro j hj
    have := h (j + 1) (by omega)
    have e : i + (j + 1) = i + 1 + j := by omega
    rwa [e] at this

theorem find_newline_some (mem : Mem) (data : Nat) (n i k : Nat)
    (h : ∀ j, j < k → mem (data + (i + j)) ≠ 10) (hk : mem (data + (i + k)) = 10) (hkn : k < n) :
    find_newline mem data n i = some (i + k) := by
  induction n generalizing i k with
  | zero => omega
  | succ n ih =>
    cases k with
    | zero => simp only [Nat.add_zero] at hk; simp [find_newline, hk]
    | succ k =>
      have h0 := h 0 (by omega)
      simp only [Nat.add_zero] at h0
      simp only [find_newline, h0, if_false]
      have e : i + (k + 1) = i + 1 + k := by omega
      rw [e]
      apply ih
      · intro j hj
        have := h (j + 1) (by omega)
        have e : i + (j + 1) = i + 1 + j := by omega
        rwa [e] at this
      · rwa [← e]
      · omega

theorem find_newline_ge (mem : Mem) (data : Nat) (n i r : Nat)
    (h : find_newline mem data n i = some r) : i ≤ r ∧ r < i + n ∧ mem (data + r) = 10 := by
  induction n generalizing i with
  | zero => simp [find_newline] at h
  | succ n ih =>
    simp only [find_newline] at h
    split at h
    · next h10 =>
      injection h with h
      subst h
      exact ⟨le_refl _, by omega, h10⟩
    · have := ih (i + 1) h
      omega

/-- The size of the line only grows in the loop of `read_line`. -/
theorem read_line_loop_size (c fuel : Nat) (s : ReadState) (line : Line) (arena : Arena)
    (mem : Mem) (input : List ReadOutcome)
    (h : read_line_loop c fuel s = Ret.ok (line, arena, mem, input)) :
    s.line.size ≤ line.size ∧ line.data = s.line.data := by
  induction fuel generalizing s with
  | zero => simp [read_line_loop] at h
  | succ fuel ih =>
    rcases hr : read_looped s.line.data c s.mem s.input with ⟨r, m, rest⟩
    simp only [read_line_loop, hr] at h
    split at h
    · simp at h
    · split at h
      · injection h with h
        simp only [Prod.mk.injEq] at h
        rw [← h.1]
        exact ⟨le_refl _, rfl⟩
      · split at h
        · next i hi =>
          injection h with h
          simp only [Prod.mk.injEq] at h
          rw [← h.1]
          have := find_newline_ge _ _ _ _ _ hi
          exact ⟨by simp only; omega, rfl⟩
        · have := ih _ h
          simp only at this
          exact ⟨by omega, this.2⟩

/-- With one more step than there are read outcomes, the loop of `read_line`
comes to an end. -/
theorem read_line_loop_total (c fuel : Nat) (s : ReadState) (h : s.input.length < fuel) :
    read_line_loop c fuel s ≠ Ret.out_of_fuel := by
  induction fuel generalizing s with
  | zero => omega
  | succ fuel ih =>
    rcases hr : read_looped s.line.data c s.mem s.input with ⟨r, m, rest⟩
    simp only [read_line_loop, hr]
    split
    · simp
    · split
      · simp
      · next hr1 hr0 =>
        split
        · simp
        · apply ih
          simp only
          rcases read_looped_rest_length s.line.data c s.mem s.input with h0 | h0
          · rw [h0] at hr
            simp [read_looped] at hr
            exact absurd hr.1.symm hr0
          · rw [hr] at h0
            simp only at h0
            omega

theorem read_looped_eof_mem (buf count : Nat) (mem : Mem) (input : List ReadOutcome)
    (h : (read_looped buf count mem input).1 = 0) :
    (read_looped buf count mem input).2.1 = mem := by
  induction input with
  | nil => rfl
  | cons o rest ih =>
    cases o with
    | interrupted => exact ih (by simpa [read_looped] using h)
    | failed => rfl
    | data bs =>
      simp only [read_looped] at h ⊢
      have : (bs.take count).length = 0 := by exact_mod_cast h
      rw [List.length_eq_zero] at this
      rw [this, write_bytes_nil]

/-- C4 (failing input): with chunk size 4096, when the stream `echo\n` arrives
in two reads, `ec` and then `ho\n`, `read_line` returns a Line of size 3 whose
bytes are `ho\n`: the second read is stored at `line.data` again, over the
first chunk, not after it. -/
theorem read_line_overwrites_first_chunk :
    ∃ arena mem,
      read_line 3 ⟨4096, 0, 2 ^ 36⟩ 4096 (fun _ => 0)
        [ReadOutcome.data [101, 99], ReadOutcome.data [104, 111, 10]]
        = Ret.ok (⟨4096, 3⟩, arena, mem, []) ∧
      read_bytes mem 4096 3 = [104, 111, 10] :=
  ⟨_, _, rfl, by decide⟩

/-- C5 (counterexample): a single read delivers `a\nb\n` and the stream then
ends.  The first `read_line` returns `a\n`; the next call, on the arena, memory
and stream the first one left, returns a Line of size zero, not `b\n`. -/
theorem read_line_loses_bytes_after_newline :
    ∃ arena1 mem1 arena2 mem2 line2,
      read_line 2 ⟨4096, 0, 2 ^ 36⟩ 4096 (fun _ => 0) [ReadOutcome.data [97, 10, 98, 10]]
        = Ret.ok (⟨4096, 2⟩, arena1, mem1, []) ∧
      read_bytes mem1 4096 2 = [97, 10] ∧
      read_line 1 arena1 4096 mem1 [] = Ret.ok (line2, arena2, mem2, []) ∧
      line2.size = 0 ∧
      ¬ ([98, 10] <+: read_bytes mem2 line2.data line2.size) :=
  ⟨_, _, _, _, _, rfl, by decide, rfl, rfl, by decide⟩
theorem read_line_first_newline (arena : Arena) (mem : Mem) (c : Nat) (pre post : List Nat)
    (input : List ReadOutcome) (fuel : Nat) (hpre : 10 ∉ pre)
    (hlen : (pre ++ 10 :: post).length ≤ c) :
    read_line (fuel + 1) arena c mem (ReadOutcome.data (pre ++ 10 :: post) :: input)
      = Ret.ok (⟨arena_end arena, pre.length + 1⟩, arena_align (arena_push arena c).2,
          write_bytes mem (arena_end arena) (pre ++ 10 :: post), input) := by
  have htake : (pre ++ 10 :: post).take c = pre ++ 10 :: post := List.take_of_length_le hlen
  have hfind : find_newline (write_bytes mem (arena_end arena) (pre ++ 10 :: post))
      (arena_end arena) (pre ++ 10 :: post).length 0 = some (0 + pre.length) := by
    apply find_newline_some
    · intro j hj
      have hj2 : j < (pre ++ 10 :: post).length := by
        rw [List.length_append]; omega
      rw [Nat.zero_add, write_bytes_at _ _ _ _ hj2,
        List.getD_eq_getElem _ _ hj2, List.getElem_append_left hj]
      intro h10
      exact hpre (h10 ▸ List.getElem_mem hj)
    · rw [Nat.zero_add, write_bytes_at _ _ _ _ (by simp),
        List.getD_eq_getElem _ _ (by simp)]
      rw [List.getElem_append_right (le_refl _)]
      simp
    · simp
  have h1 : ¬ (((pre ++ 10 :: post).length : Nat) : Int) = -1 := by omega
  have h0 : ¬ (((pre ++ 10 :: post).length : Nat) : Int) = 0 := by
    simp only [List.length_append, List.length_cons]; omega
  simp only [read_line, read_line_loop, read_looped, htake, h1, h0, if_false, Int.toNat_ofNat,
    hfind, Nat.zero_add]
theorem read_line_at_eof (arena : Arena) (mem : Mem) (c fuel : Nat) (input : List ReadOutcome)
    (h : (read_looped (arena_end arena) c mem input).1 = 0) :
    read_line (fuel + 1) arena c mem input
      = Ret.ok (⟨arena_end arena, 0⟩, arena_align (arena_push arena c).2, mem,
          (read_looped (arena_end arena) c mem input).2.2) := by
  have hm := read_looped_eof_mem _ _ _ _ h
  rcases hr : read_looped (arena_end arena) c mem input with ⟨r, m, rest⟩
  rw [hr] at h hm
  simp only at h hm
  subst h
  subst hm
  simp [read_line, read_line_loop, hr]

theorem read_line_full_chunk (arena : Arena) (mem : Mem) (c : Nat) (block : List Nat)
    (rest : List ReadOutcome) (hc : 1 ≤ c) (hlen : block.length = c) (hnl : 10 ∉ block)
    (heof : (read_looped (arena_end arena) c (write_bytes mem (arena_end arena) block) rest).1 = 0)
    (fuel : Nat) :
    read_line (fuel + 2) arena c mem (ReadOutcome.data block :: rest)
      = Ret.ok (⟨arena_end arena, c⟩,
          arena_align (arena_push (arena_align (arena_push arena c).2) c).2,
          write_bytes mem (arena_end arena) block,
          (read_looped (arena_end arena) c (write_bytes mem (arena_end arena) block) rest).2.2) := by
  have htake : block.take c = block := List.take_of_length_le (le_of_eq hlen)
  have hfind : find_newline (write_bytes mem (arena_end arena) block) (arena_end arena) c 0
      = none := by
    apply find_newline_none
    intro j hj
    have hj2 : j < block.length := by omega
    rw [Nat.zero_add, write_bytes_at _ _ _ _ hj2, List.getD_eq_getElem _ _ hj2]
    intro h10
    exact hnl (h10 ▸ List.getElem_mem hj2)
  have hm := read_looped_eof_mem _ _ _ _ heof
  rcases hr : read_looped (arena_end arena) c (write_bytes mem (arena_end arena) block) rest
    with ⟨r, m, rest2⟩
  rw [hr] at heof hm
  simp only at heof hm
  subst heof
  subst hm
  have h1 : ¬ ((c : Nat) : Int) = -1 := by omega
  have h0 : ¬ ((c : Nat) : Int) = 0 := by omega
  simp only [read_line, read_line_loop, read_looped, htake, hlen, h1, h0, if_false,
    Int.toNat_ofNat, hfind, Nat.zero_add, hr]
  simp
/-! ## Facts about the loop driver -/

theorem wait_child_step (sys : Sys) (s : Shell) (command : List Nat) :
    (wait_child sys s command).2 ≠ Step.finished ∧
    (wait_child sys s command).2 ≠ Step.exit_failure := by
  unfold wait_child
  simp only
  repeat' split
  all_goals simp

/-- Once a line of non-zero size is read, the iteration neither leaves the loop
nor ends the interpreter. -/
theorem dispatch_step (sys : Sys) (s : Shell) (line : Line) :
    (dispatch sys s line).2 ≠ Step.finished ∧ (dispatch sys s line).2 ≠ Step.exit_failure := by
  unfold dispatch
  repeat' split
  all_goals first | exact wait_child_step _ _ _ | simp

/-- C8: `read_line` returns a Line of size zero exactly when its first completed
read reports end-of-stream, and then it does return one; in that case the loop
iteration prints the prompt, dispatches nothing and leaves the loop (`main`
returns); when `read_line` returns a Line after a first read of at least one
byte its size is at least 1, and the iteration neither leaves the loop nor ends
the interpreter. -/
theorem read_line_size_zero_iff_eof :
    (∀ (fuel : Nat) (arena : Arena) (c : Nat) (mem : Mem) (input : List ReadOutcome),
      (read_looped (arena_end arena) c mem input).1 = 0 →
      ∃ arena1 mem1 input1, read_line (fuel + 1) arena c mem input
        = Ret.ok (⟨arena_end arena, 0⟩, arena1, mem1, input1)) ∧
    (∀ (fuel : Nat) (arena : Arena) (c : Nat) (mem : Mem) (input : List ReadOutcome)
      (line : Line) (arena1 : Arena) (mem1 : Mem) (input1 : List ReadOutcome),
      read_line fuel arena c mem input = Ret.ok (line, arena1, mem1, input1) →
      (line.size = 0 ↔ (read_looped (arena_end arena) c mem input).1 = 0) ∧
      ((read_looped (arena_end arena) c mem input).1 ≠ 0 → 1 ≤ line.size)) ∧
    (∀ (sys : Sys) (s : Shell),
      (read_looped (arena_end s.arena) 4096 s.mem s.input).1 = 0 →
      main_iteration sys s = ([print_prompt s.env], Step.finished)) ∧
    (∀ (sys : Sys) (s : Shell) (line : Line) (arena1 : Arena) (mem1 : Mem)
      (input1 : List ReadOutcome),
      read_line (s.input.length + 1) s.arena 4096 s.mem s.input
        = Ret.ok (line, arena1, mem1, input1) →
      1 ≤ line.size →
      (main_iteration sys s).2 ≠ Step.finished ∧
      (main_iteration sys s).2 ≠ Step.exit_failure) := by
  have key : ∀ (fuel : Nat) (arena : Arena) (c : Nat) (mem : Mem) (input : List ReadOutcome)
      (line : Line) (arena1 : Arena) (mem1 : Mem) (input1 : List ReadOutcome),
      read_line fuel arena c mem input = Ret.ok (line, arena1, mem1, input1) →
      (read_looped (arena_end arena) c mem input).1 ≠ 0 → 1 ≤ line.size := by
    intro fuel arena c mem input line arena1 mem1 input1 h hne
    cases fuel with
    | zero => simp [read_line, read_line_loop] at h
    | succ fuel =>
      rcases hr : read_looped (arena_end arena) c mem input with ⟨r, m, rest⟩
      rw [hr] at hne
      simp only at hne
      have hspec := read_looped_spec (arena_end arena) c mem input
      rw [hr] at hspec
      simp only at hspec
      simp only [read_line, read_line_loop, hr] at h
      split at h
      · simp at h
      · next hr1 =>
        have hpos : 1 ≤ r.toNat := by
          rcases hspec with h1 | ⟨bs, hb, _, _⟩
          · exact absurd h1.1 hr1
          · omega
        split at h
        · injection h with h
          simp only [Prod.mk.injEq] at h
          rw [← h.1]
          simp
        · have := (read_line_loop_size _ _ _ _ _ _ _ h).1
          simp only at this
          omega
  refine ⟨?_, ?_, ?_, ?_⟩
  · intro fuel arena c mem input h
    exact ⟨_, _, _, read_line_at_eof arena mem c fuel input h⟩
  · intro fuel arena c mem input line arena1 mem1 input1 h
    refine ⟨⟨?_, ?_⟩, key fuel arena c mem input line arena1 mem1 input1 h⟩
    · intro hz
      by_contra hne
      have := key fuel arena c mem input line arena1 mem1 input1 h hne
      omega
    · intro h0
      cases fuel with
      | zero => simp [read_line, read_line_loop] at h
      | succ fuel =>
        rw [read_line_at_eof arena mem c fuel input h0] at h
        injection h with h
        simp only [Prod.mk.injEq] at h
        rw [← h.1]
  · intro sys s h
    simp [main_iteration, read_line_at_eof s.arena s.mem 4096 s.input.length s.input h]
  · intro sys s line arena1 mem1 input1 h hsz
    have hne : ¬ line.size = 0 := by omega
    simp only [main_iteration, h, hne, if_false]
    exact dispatch_step _ _ _

theorem read_line_size_zero_iff_eof_witness :
    (∃ arena1 mem1 input1, read_line 1 ⟨4096, 0, 2 ^ 36⟩ 4096 (fun _ => 0) []
        = Ret.ok (⟨arena_end ⟨4096, 0, 2 ^ 36⟩, 0⟩, arena1, mem1, input1)) ∧
    main_iteration ⟨1, true, 1, 0, 0, 1000, 0⟩ ⟨⟨4096, 0, 2 ^ 36⟩, fun _ => 0, [], fun _ => none⟩
      = ([print_prompt fun _ => none], Step.finished) ∧
    ((main_iteration ⟨1, true, 1, 0, 0, 1000, 0⟩
        ⟨⟨4096, 0, 2 ^ 36⟩, fun _ => 0, [ReadOutcome.data [32, 10]], fun _ => none⟩).2
        ≠ Step.finished ∧
     (main_iteration ⟨1, true, 1, 0, 0, 1000, 0⟩
        ⟨⟨4096, 0, 2 ^ 36⟩, fun _ => 0, [ReadOutcome.data [32, 10]], fun _ => none⟩).2
        ≠ Step.exit_failure) :=
  ⟨read_line_size_zero_iff_eof.1 0 ⟨4096, 0, 2 ^ 36⟩ 4096 (fun _ => 0) [] rfl,
   read_line_size_zero_iff_eof.2.2.1 ⟨1, true, 1, 0, 0, 1000, 0⟩
     ⟨⟨4096, 0, 2 ^ 36⟩, fun _ => 0, [], fun _ => none⟩ rfl,
   read_line_size_zero_iff_eof.2.2.2 ⟨1, true, 1, 0, 0, 1000, 0⟩
     ⟨⟨4096, 0, 2 ^ 36⟩, fun _ => 0, [ReadOutcome.data [32, 10]], fun _ => none⟩
     ⟨4096, 2⟩ _ _ _ rfl (by decide)⟩

/-- C9: for every chunk size `c >= 1` and every block of exactly `c` bytes with
no newline, when the first read returns the whole block and the next read
reports end-of-stream, `read_line` returns a Line of size `c` whose bytes are
that block; with the chunk size 4096 of `main`, the loop iteration hands that
Line to `split` (it continues with `dispatch` on it). -/
theorem read_line_delivers_full_chunk (arena : Arena) (mem : Mem) (c : Nat) (block : List Nat)
    (rest : List ReadOutcome) (hc : 1 ≤ c) (hlen : block.length = c) (hnl : 10 ∉ block)
    (heof : (read_looped (arena_end arena) c (write_bytes mem (arena_end arena) block) rest).1 = 0) :
    ∃ arena1 mem1 input1,
      (∀ fuel, read_line (fuel + 2) arena c mem (ReadOutcome.data block :: rest)
        = Ret.ok (⟨arena_end arena, c⟩, arena1, mem1, input1)) ∧
      read_bytes mem1 (arena_end arena) c = block ∧
      (c = 4096 → ∀ (sys : Sys) (env : Env),
        main_iteration sys ⟨arena, mem, ReadOutcome.data block :: rest, env⟩
          = (print_prompt env ::
              (dispatch sys ⟨arena1, mem1, input1, env⟩ ⟨arena_end arena, c⟩).1,
             (dispatch sys ⟨arena1, mem1, input1, env⟩ ⟨arena_end arena, c⟩).2)) := by
  refine ⟨_, _, _, fun fuel => read_line_full_chunk arena mem c block rest hc hlen hnl heof fuel,
    ?_, ?_⟩
  · rw [← hlen]
    exact read_bytes_write_bytes _ _ _
  · intro h4096 sys env
    subst h4096
    have hne : ¬ (4096 : Nat) = 0 := by omega
    simp only [main_iteration, List.length_cons,
      read_line_full_chunk arena mem 4096 block rest hc hlen hnl heof rest.length, hne, if_false]

theorem read_line_delivers_full_chunk_witness :
    ∃ arena1 mem1 input1,
      (∀ fuel, read_line (fuel + 2) ⟨65536, 0, 2 ^ 36⟩ 4096 (fun _ => 0)
          (ReadOutcome.data (List.replicate 4096 97) :: [])
        = Ret.ok (⟨arena_end ⟨65536, 0, 2 ^ 36⟩, 4096⟩, arena1, mem1, input1)) ∧
      read_bytes mem1 (arena_end ⟨65536, 0, 2 ^ 36⟩) 4096 = List.replicate 4096 97 ∧
      (4096 = 4096 → ∀ (sys : Sys) (env : Env),
        main_iteration sys ⟨⟨65536, 0, 2 ^ 36⟩, fun _ => 0,
            ReadOutcome.data (List.replicate 4096 97) :: [], env⟩
          = (print_prompt env ::
              (dispatch sys ⟨arena1, mem1, input1, env⟩ ⟨arena_end ⟨65536, 0, 2 ^ 36⟩, 4096⟩).1,
             (dispatch sys ⟨arena1, mem1, input1, env⟩ ⟨arena_end ⟨65536, 0, 2 ^ 36⟩, 4096⟩).2)) :=
  read_line_delivers_full_chunk ⟨65536, 0, 2 ^ 36⟩ (fun _ => 0) 4096 (List.replicate 4096 97) []
    (by decide) (List.length_replicate 4096 97)
    (fun h => absurd (List.eq_of_mem_replicate h) (by decide)) rfl

/-! ## Facts about the tokenizer -/

theorem skip_spaces_all (mem : Mem) (line : Line)
    (hws : ∀ i, i < line.size → is_space (mem (line.data + i)) = true) (n word : Nat)
    (h : word + n ≤ line.size) : skip_spaces mem line n word = word + n := by
  induction n generalizing word with
  | zero => rfl
  | succ n ih =>
    have hw : word < line.size := by omega
    simp only [skip_spaces, hw, hws word hw, and_self, if_true]
    rw [ih (word + 1) (by omega)]
    omega

/-- When the scan for a delimiter runs to the end of the line from a word start,
the `while (true)` of `split` repeats the same iteration for ever. -/
theorem split_loop_spins (line : Line) (word : Nat) (arena : Arena) (mem : Mem)
    (hskip : skip_spaces mem line (line.size - word) word = word) (hne : word ≠ line.size)
    (hfind : find_delimiter mem line (line.size - word) word = none) (fuel : Nat) :
    split_loop line fuel word arena mem = none := by
  induction fuel with
  | zero => rfl
  | succ fuel ih => simp only [split_loop, hskip, hne, hfind, if_false]; exact ih

/-- C6 (failing input): on the 7-byte final line `echo hi` (no newline at the
end) `split` does not return, whatever the step budget: after the word `echo`
the scan from `hi` reaches the end of the line without a delimiter and the outer
loop starts over at the same position. -/
theorem split_spins_on_unterminated_line (fuel : Nat) :
    split fuel ⟨4096, 4096, 2 ^ 36⟩
      (write_bytes (fun _ => 0) 4096 [101, 99, 104, 111, 32, 104, 105]) ⟨4096, 7⟩ = none := by
  cases fuel with
  | zero => rfl
  | succ fuel =>
    have h1 : skip_spaces (write_bytes (fun _ => 0) 4096 [101, 99, 104, 111, 32, 104, 105])
        ⟨4096, 7⟩ (7 - 0) 0 = 0 := by decide
    have h2 : find_delimiter (write_bytes (fun _ => 0) 4096 [101, 99, 104, 111, 32, 104, 105])
        ⟨4096, 7⟩ (7 - 0) 0 = some 4 := by decide
    have h3 := split_loop_spins ⟨4096, 7⟩ 5
      (add_word ⟨4096, 4096, 2 ^ 36⟩
        (write_bytes (fun _ => 0) 4096 [101, 99, 104, 111, 32, 104, 105]) ⟨4096, 7⟩ 0 4).1
      (add_word ⟨4096, 4096, 2 ^ 36⟩
        (write_bytes (fun _ => 0) 4096 [101, 99, 104, 111, 32, 104, 105]) ⟨4096, 7⟩ 0 4).2
      (by decide) (by decide) (by decide) fuel
    simp only [split, split_loop, h1, h2, h3]
    simp

/-- C7: for every non-empty line that holds only spaces, tabs and newlines,
`split` returns a word sequence whose first element is the null pointer, and the
loop iteration that read the line produces nothing but the prompt (no fork, no
exec, no wait, no setenv), leaves the environment, the exit-status variable
included, as it was, and is back at the top of the loop. -/
theorem whitespace_line_dispatches_nothing (arena : Arena) (mem : Mem) (line : Line)
    (hsize : 1 ≤ line.size)
    (hws : ∀ i, i < line.size → is_space (mem (line.data + i)) = true) :
    (∀ fuel, split (fuel + 1) arena mem line
        = some (arena_end arena, (arena_push arena 8).2, write_u64 mem (arena_end arena) 0)) ∧
    read_u64 (write_u64 mem (arena_end arena) 0) (arena_end arena) = 0 ∧
    (∀ (sys : Sys) (s : Shell) (input1 : List ReadOutcome),
      read_line (s.input.length + 1) s.arena 4096 s.mem s.input
        = Ret.ok (line, arena, mem, input1) →
      main_iteration sys s
        = ([print_prompt s.env],
           Step.next ⟨(arena_push arena 8).2, write_u64 mem (arena_end arena) 0, input1, s.env⟩)) := by
  have hsplit : ∀ fuel, split (fuel + 1) arena mem line
      = some (arena_end arena, (arena_push arena 8).2, write_u64 mem (arena_end arena) 0) := by
    intro fuel
    have hs : skip_spaces mem line (line.size - 0) 0 = line.size := by
      rw [skip_spaces_all mem line hws _ 0 (by omega)]
      omega
    simp only [split, split_loop, hs, if_true]
    rfl
  have hnull : read_u64 (write_u64 mem (arena_end arena) 0) (arena_end arena) = 0 := by
    rw [read_write_u64]; rfl
  refine ⟨hsplit, hnull, ?_⟩
  intro sys s input1 hread
  have hne : ¬ line.size = 0 := by omega
  simp only [main_iteration, hread, hne, if_false, dispatch, hsplit line.size, hnull, if_true]

theorem whitespace_line_dispatches_nothing_witness :
    (∀ fuel, split (fuel + 1) (arena_align (arena_push ⟨4096, 0, 2 ^ 36⟩ 4096).2)
        (write_bytes (fun _ => 0) 4096 [32, 9, 10]) ⟨4096, 3⟩
        = some (arena_end (arena_align (arena_push ⟨4096, 0, 2 ^ 36⟩ 4096).2),
            (arena_push (arena_align (arena_push ⟨4096, 0, 2 ^ 36⟩ 4096).2) 8).2,
            write_u64 (write_bytes (fun _ => 0) 4096 [32, 9, 10])
              (arena_end (arena_align (arena_push ⟨4096, 0, 2 ^ 36⟩ 4096).2)) 0)) ∧
    main_iteration ⟨1, true, 1, 0, 0, 1000, 0⟩
        ⟨⟨4096, 0, 2 ^ 36⟩, fun _ => 0, [ReadOutcome.data [32, 9, 10]], fun _ => none⟩
      = ([print_prompt fun _ => none],
         Step.next ⟨(arena_push (arena_align (arena_push ⟨4096, 0, 2 ^ 36⟩ 4096).2) 8).2,
           write_u64 (write_bytes (fun _ => 0) 4096 [32, 9, 10])
             (arena_end (arena_align (arena_push ⟨4096, 0, 2 ^ 36⟩ 4096).2)) 0, [],
           fun _ => none⟩) :=
  ⟨(whitespace_line_dispatches_nothing (arena_align (arena_push ⟨4096, 0, 2 ^ 36⟩ 4096).2)
      (write_bytes (fun _ => 0) 4096 [32, 9, 10]) ⟨4096, 3⟩ (by decide) (by decide)).1,
   (whitespace_line_dispatches_nothing (arena_align (arena_push ⟨4096, 0, 2 ^ 36⟩ 4096).2)
      (write_bytes (fun _ => 0) 4096 [32, 9, 10]) ⟨4096, 3⟩ (by decide) (by decide)).2.2
      ⟨1, true, 1, 0, 0, 1000, 0⟩
      ⟨⟨4096, 0, 2 ^ 36⟩, fun _ => 0, [ReadOutcome.data [32, 9, 10]], fun _ => none⟩ [] rfl⟩

/-! ## Facts about environment expansion -/

/-- The expansion loop, word by word: the number of argument words is kept, and
each one is replaced by the looked-up value (or the empty string) when it
starts with `$`, and kept otherwise. -/
theorem expand_args_getElem (env : Env) (args : List (List Nat)) :
    (expand_args env args).length = args.length ∧
    ∀ (k : Nat) (w : List Nat), args[k]? = some w →
      (expand_args env args)[k]? =
        some (if w.head? = some 36 then (match env w.tail with | some v => v | none => [])
              else w) := by
  induction args with
  | nil => simp [expand_args]
  | cons a rest ih =>
    refine ⟨by simp [expand_args, ih.1], ?_⟩
    intro k w hk
    cases k with
    | zero =>
      simp only [List.getElem?_cons_zero, Option.some.injEq] at hk
      subst hk
      simp [expand_args]
    | succ k =>
      simp only [List.getElem?_cons_succ] at hk
      simp only [expand_args, List.getElem?_cons_succ]
      exact ih.2 k w hk

/-- C2: in every word sequence `command :: args` and every environment, after
the expansion loop each argument word (index at least 1) that starts with `$`
is exactly the value the environment gives for the rest of the word, and the
empty string when that name is unset.  The line `echo $HOME` followed by a
newline, with `HOME=/root`, is executed with the words `echo` and `/root`. -/
theorem expansion_gives_environment_value (env : Env) (command : List Nat)
    (args : List (List Nat)) (k : Nat) (name : List Nat) (hk : 1 ≤ k)
    (hword : (command :: args)[k]? = some (36 :: name)) :
    ((∀ v, env name = some v → (command :: expand_args env args)[k]? = some v) ∧
     (env name = none → (command :: expand_args env args)[k]? = some [])) ∧
    (main_iteration ⟨0, false, 0, 0, 0, 1000, 0⟩
        ⟨⟨4096, 0, 2 ^ 36⟩, fun _ => 0,
          [ReadOutcome.data [101, 99, 104, 111, 32, 36, 72, 79, 77, 69, 10]],
          fun n => if n = [72, 79, 77, 69] then some [47, 114, 111, 111, 116] else none⟩).1
      = [Event.prompt [36, 32], Event.fork,
          Event.exec [101, 99, 104, 111] [[101, 99, 104, 111], [47, 114, 111, 111, 116]]] := by
  refine ⟨?_, by decide⟩
  obtain ⟨j, rfl⟩ : ∃ j, k = j + 1 := ⟨k - 1, by omega⟩
  simp only [List.getElem?_cons_succ] at hword ⊢
  have h := (expand_args_getElem env args).2 j _ hword
  simp only [List.head?_cons, List.tail_cons, if_true] at h
  constructor
  · intro v hv
    rw [h, hv]
  · intro hn
    rw [h, hn]

theorem expansion_gives_environment_value_witness :
    ((∀ v, (fun n => if n = [72, 79, 77, 69] then some [47, 114, 111, 111, 116] else none)
          [72, 79, 77, 69] = some v →
        ([101, 99, 104, 111] ::
          expand_args (fun n => if n = [72, 79, 77, 69] then some [47, 114, 111, 111, 116] else none)
            [[36, 72, 79, 77, 69]])[1]? = some v) ∧
     ((fun n => if n = [72, 79, 77, 69] then some [47, 114, 111, 111, 116] else none)
          [72, 79, 77, 69] = none →
        ([101, 99, 104, 111] ::
          expand_args (fun n => if n = [72, 79, 77, 69] then some [47, 114, 111, 111, 116] else none)
            [[36, 72, 79, 77, 69]])[1]? = some [])) :=
  (expansion_gives_environment_value
    (fun n => if n = [72, 79, 77, 69] then some [47, 114, 111, 111, 116] else none)
    [101, 99, 104, 111] [[36, 72, 79, 77, 69]] 1 [72, 79, 77, 69] (by decide) (by decide)).1

/-! ## Facts about maximal runs -/

theorem maximal_runs_spaces (sp l : List Nat) (h : ∀ x ∈ sp, is_space x = true) :
    maximal_runs (sp ++ l) = maximal_runs l := by
  induction sp with
  | nil => rfl
  | cons a t ih =>
    have ha : is_space a = true := h a (List.mem_cons_self _ _)
    have ht : ∀ x ∈ t, is_space x = true := fun x hx => h x (List.mem_cons_of_mem _ hx)
    have := ih ht
    simp only [maximal_runs] at this ⊢
    rw [List.cons_append, List.splitOnP_cons, if_pos ha, List.filter_cons]
    simpa using this

theorem maximal_runs_word (w rest : List Nat) (sep : Nat) (hw : w ≠ [])
    (hns : ∀ x ∈ w, ¬ is_space x = true) (hsep : is_space sep = true) :
    maximal_runs (w ++ sep :: rest) = w :: maximal_runs rest := by
  simp only [maximal_runs]
  rw [List.splitOnP_first is_space w hns sep hsep rest, List.filter_cons]
  have : (!w.isEmpty) = true := by
    cases w with
    | nil => exact absurd rfl hw
    | cons a t => rfl
  rw [if_pos this]

theorem maximal_runs_nil : maximal_runs [] = [] := by
  simp [maximal_runs, List.splitOnP_nil]
/-! ## The scans of `split`, read off the bytes of the line -/

theorem skip_spaces_takeWhile (mem : Mem) (line : Line) (suf : List Nat) (word k : Nat)
    (hm : ∀ j (hj : j < suf.length), mem (line.data + (word + j)) = suf[j])
    (hsz : word + suf.length = line.size) (hk : suf.length ≤ k) :
    skip_spaces mem line k word = word + (suf.takeWhile is_space).length := by
  induction suf generalizing word k with
  | nil =>
    have : ¬ word < line.size := by simp at hsz; omega
    cases k with
    | zero => rfl
    | succ k => simp [skip_spaces, this]
  | cons a t ih =>
    obtain ⟨k, rfl⟩ : ∃ k2, k = k2 + 1 := ⟨k - 1, by simp at hk; omega⟩
    have h0 := hm 0 (by simp)
    simp only [Nat.add_zero, List.getElem_cons_zero] at h0
    have hw : word < line.size := by simp at hsz; omega
    by_cases ha : is_space a = true
    · simp only [skip_spaces, hw, h0, ha, and_self, if_true, List.takeWhile_cons_of_pos ha,
        List.length_cons]
      rw [ih (word + 1) k _ (by simp at hsz; omega) (by simp at hk; omega)]
      · omega
      · intro j hj
        have := hm (j + 1) (by simp; omega)
        simp only [List.getElem_cons_succ] at this
        rw [← this]
        congr 2
        omega
    · simp [skip_spaces, hw, h0, ha, List.takeWhile_cons_of_neg ha]

theorem find_delimiter_takeWhile (mem : Mem) (line : Line) (suf : List Nat) (i k : Nat)
    (hm : ∀ j (hj : j < suf.length), mem (line.data + (i + j)) = suf[j])
    (hsz : i + suf.length = line.size) (hk : suf.length ≤ k) :
    find_delimiter mem line k i =
      match suf.dropWhile (fun c => !is_delimiter c) with
      | [] => none
      | _ :: _ => some (i + (suf.takeWhile (fun c => !is_delimiter c)).length) := by
  induction suf generalizing i k with
  | nil =>
    have : ¬ i < line.size := by simp at hsz; omega
    cases k with
    | zero => rfl
    | succ k => simp [find_delimiter, this]
  | cons a t ih =>
    obtain ⟨k, rfl⟩ : ∃ k2, k = k2 + 1 := ⟨k - 1, by simp at hk; omega⟩
    have h0 := hm 0 (by simp)
    simp only [Nat.add_zero, List.getElem_cons_zero] at h0
    have hw : i < line.size := by simp at hsz; omega
    by_cases ha : is_delimiter a = true
    · have hna : ¬ (!is_delimiter a) = true := by simpa using ha
      rw [List.takeWhile_cons, List.dropWhile_cons, if_neg hna, if_neg hna]
      simp [find_delimiter, hw, h0, ha]
    · have hna : (!is_delimiter a) = true := by simpa using ha
      rw [@List.takeWhile_cons_of_pos _ (fun c => !is_delimiter c) a t hna,
        @List.dropWhile_cons_of_pos _ (fun c => !is_delimiter c) a t hna]
      simp only [find_delimiter, hw, h0, ha, if_true, List.length_cons]
      rw [ih (i + 1) k _ (by simp at hsz; omega) (by simp at hk; omega)]
      · have e : ∀ x, i + 1 + x = i + (x + 1) := fun x => by omega
        simp only [e]
        simp
      · intro j hj
        have := hm (j + 1) (by simp; omega)
        simp only [List.getElem_cons_succ] at this
        rw [← this]
        congr 2
        omega
/-- The first word of a line that ends in a newline and has no quote: after
the leading whitespace come a non-empty run without whitespace and a whitespace
byte, and the runs of the line are that run followed by the runs of what comes
after. -/
theorem first_word_decomp (suf : List Nat) (hlast : suf = [] ∨ suf.getLast? = some 10)
    (hq : 34 ∉ suf) (a : Nat) (t1 : List Nat) (hd : suf.dropWhile is_space = a :: t1) :
    ∃ sep rest,
      (a :: t1).dropWhile (fun c => !is_delimiter c) = sep :: rest ∧
      suf = suf.takeWhile is_space ++
        ((a :: t1).takeWhile (fun c => !is_delimiter c) ++ sep :: rest) ∧
      1 ≤ ((a :: t1).takeWhile (fun c => !is_delimiter c)).length ∧
      maximal_runs suf =
        (a :: t1).takeWhile (fun c => !is_delimiter c) :: maximal_runs rest ∧
      (rest = [] ∨ rest.getLast? = some 10) ∧ 34 ∉ rest ∧
      (∀ x ∈ (a :: t1).takeWhile (fun c => !is_delimiter c), x ∈ suf) ∧
      (∀ x ∈ rest, x ∈ suf) := by
  have hsplit : suf.takeWhile is_space ++ (a :: t1) = suf := by
    rw [← hd]; exact List.takeWhile_append_dropWhile _ _
  have hsub1 : ∀ x ∈ a :: t1, x ∈ suf := by
    intro x hx; rw [← hsplit]; exact List.mem_append_right _ hx
  have hne : suf ≠ [] := by
    intro h; rw [h] at hd; simp at hd
  have hlast1 : (a :: t1).getLast? = some 10 := by
    rcases hlast with h | h
    · exact absurd h hne
    · rw [← hsplit, List.getLast?_append_of_ne_nil _ (List.cons_ne_nil a t1)] at h
      exact h
  have h10 : (10 : Nat) ∈ a :: t1 := List.mem_of_getLast?_eq_some hlast1
  have hdne : (a :: t1).dropWhile (fun c => !is_delimiter c) ≠ [] := by
    intro h
    have := (List.dropWhile_eq_nil_iff.1 h) 10 h10
    simp [is_delimiter, is_space] at this
  obtain ⟨sep, rest, hdr⟩ : ∃ sep rest,
      (a :: t1).dropWhile (fun c => !is_delimiter c) = sep :: rest := by
    cases h : (a :: t1).dropWhile (fun c => !is_delimiter c) with
    | nil => exact absurd h hdne
    | cons s r => exact ⟨s, r, rfl⟩
  have hw2 : (a :: t1).takeWhile (fun c => !is_delimiter c) ++ sep :: rest = a :: t1 := by
    rw [← hdr]; exact List.takeWhile_append_dropWhile _ _
  have hsub2 : ∀ x ∈ sep :: rest, x ∈ suf := by
    intro x hx; apply hsub1; rw [← hw2]; exact List.mem_append_right _ hx
  have hsepd : is_delimiter sep = true := by
    have := List.head_dropWhile_not (fun c => !is_delimiter c) (a :: t1) hdne
    simp only [hdr, List.head_cons] at this
    simpa using this
  have hsep34 : sep ≠ 34 := by
    intro h; apply hq; rw [← h]; exact hsub2 sep (List.mem_cons_self _ _)
  have hseps : is_space sep = true := by
    simp only [is_delimiter, Bool.or_eq_true, decide_eq_true_eq] at hsepd
    rcases hsepd with h | h
    · exact h
    · exact absurd h hsep34
  have ha : ¬ is_space a = true := by
    have hdne0 : suf.dropWhile is_space ≠ [] := by rw [hd]; exact List.cons_ne_nil _ _
    have := List.head_dropWhile_not is_space suf hdne0
    simp only [hd, List.head_cons] at this
    simp [this]
  have ha34 : a ≠ 34 := by
    intro h; apply hq; rw [← h]; exact hsub1 a (List.mem_cons_self _ _)
  have hnda : (!is_delimiter a) = true := by
    simp only [is_delimiter, Bool.not_eq_true', Bool.or_eq_false_iff, decide_eq_false_iff_not]
    exact ⟨by simpa using ha, ha34⟩
  have hwlen : 1 ≤ ((a :: t1).takeWhile (fun c => !is_delimiter c)).length := by
    rw [@List.takeWhile_cons_of_pos _ (fun c => !is_delimiter c) a t1 hnda]
    simp
  have hwns : ∀ x ∈ (a :: t1).takeWhile (fun c => !is_delimiter c), ¬ is_space x = true := by
    intro x hx hs
    have := List.mem_takeWhile_imp hx
    simp [is_delimiter, hs] at this
  have hwne : (a :: t1).takeWhile (fun c => !is_delimiter c) ≠ [] := by
    intro h; rw [h] at hwlen; simp at hwlen
  refine ⟨sep, rest, hdr, ?_, hwlen, ?_, ?_, ?_, ?_, ?_⟩
  · rw [hw2, hsplit]
  · have hsp : ∀ x ∈ suf.takeWhile is_space, is_space x = true :=
      fun x hx => List.mem_takeWhile_imp hx
    calc maximal_runs suf
        = maximal_runs (suf.takeWhile is_space ++
            ((a :: t1).takeWhile (fun c => !is_delimiter c) ++ sep :: rest)) := by
          rw [hw2, hsplit]
      _ = maximal_runs ((a :: t1).takeWhile (fun c => !is_delimiter c) ++ sep :: rest) :=
          maximal_runs_spaces _ _ hsp
      _ = (a :: t1).takeWhile (fun c => !is_delimiter c) :: maximal_runs rest :=
          maximal_runs_word _ _ _ hwne hwns hseps
  · by_cases hr : rest = []
    · exact Or.inl hr
    · right
      have : (a :: t1).getLast? = rest.getLast? := by
        rw [← hw2]
        have e : (a :: t1).takeWhile (fun c => !is_delimiter c) ++ sep :: rest
            = ((a :: t1).takeWhile (fun c => !is_delimiter c) ++ [sep]) ++ rest := by simp
        rw [e, List.getLast?_append_of_ne_nil _ hr]
      rw [← this]; exact hlast1
  · intro h; exact hq (hsub2 34 (List.mem_cons_of_mem _ h))
  · intro x hx
    apply hsub1; rw [← hw2]; exact List.mem_append_left _ hx
  · intro x hx; exact hsub2 x (List.mem_cons_of_mem _ hx)
/-! ## `split` on a line that ends in a newline -/

theorem stored_append_left (mem : Mem) (a o : Nat) (l1 l2 l : List Nat) (h : l = l1 ++ l2)
    (hm : ∀ j (hj : j < l.length), mem (a + (o + j)) = l[j]) :
    ∀ j (hj : j < l1.length), mem (a + (o + j)) = l1[j] := by
  subst h
  intro j hj
  have := hm j (by rw [List.length_append]; omega)
  rw [List.getElem_append_left hj] at this
  exact this

theorem stored_append_right (mem : Mem) (a o : Nat) (l1 l2 l : List Nat) (h : l = l1 ++ l2)
    (hm : ∀ j (hj : j < l.length), mem (a + (o + j)) = l[j]) :
    ∀ j (hj : j < l2.length), mem (a + (o + l1.length + j)) = l2[j] := by
  subst h
  intro j hj
  have := hm (l1.length + j) (by rw [List.length_append]; omega)
  rw [List.getElem_append_right (by omega)] at this
  simp only [Nat.add_sub_cancel_left] at this
  rw [← this]
  congr 1
  omega

/-- What `add_word` does when the line lies below the arena frontier. -/
theorem add_word_spec (arena : Arena) (mem : Mem) (line : Line) (r e : Nat)
    (hfront : line.data + line.size ≤ arena.base + arena.used) (he : e < line.size)
    (hr : r ≤ e) (hroom : arena.base + arena.used + 8 < U64) :
    (add_word arena mem line r e).1 = ⟨arena.base, arena.used + 8, arena.size⟩ ∧
    (add_word arena mem line r e).2 (line.data + e) = 0 ∧
    read_u64 (add_word arena mem line r e).2 (arena.base + arena.used) = line.data + r ∧
    ∀ x, x ≠ line.data + e → (x < arena.base + arena.used ∨ arena.base + arena.used + 8 ≤ x) →
      (add_word arena mem line r e).2 x = mem x := by
  have hu : (arena.used + 8) % U64 = arena.used + 8 := Nat.mod_eq_of_lt (by omega)
  refine ⟨?_, ?_, ?_, ?_⟩
  · simp [add_word, arena_push, hu]
  · simp [add_word, write_u8]
  · have hc : read_u64 (add_word arena mem line r e).2 (arena.base + arena.used)
        = read_u64 (write_u64 mem (arena.base + arena.used) (line.data + r))
            (arena.base + arena.used) := by
      apply read_u64_congr
      intro j hj
      simp only [add_word, arena_push]
      rw [write_u8_other]
      omega
    rw [hc, read_write_u64]
    apply Nat.mod_eq_of_lt
    have : (2 : Nat) ^ 64 = U64 := rfl
    omega
  · intro x hx hout
    simp only [add_word, arena_push]
    rw [write_u8_other _ _ _ _ hx, write_u64_other _ _ _ _ hout]
/-- The loop of `split` on the rest of a line that ends in a newline and has no
quote: it ends, it pushes one pointer cell per maximal run, each cell holds the
address of its run, each run is followed by a zero byte, and only the line and
the new cells are written. -/
theorem split_loop_runs (line : Line) (fuel : Nat) :
    ∀ (suf : List Nat) (word : Nat) (arena : Arena) (mem : Mem),
      suf.length < fuel →
      word + suf.length = line.size →
      (∀ j (hj : j < suf.length), mem (line.data + (word + j)) = suf[j]) →
      (suf = [] ∨ suf.getLast? = some 10) →
      34 ∉ suf →
      line.data + line.size ≤ arena.base + arena.used →
      arena.base + arena.used + 8 * suf.length < U64 →
      ∃ (arena1 : Arena) (mem1 : Mem) (ptrs : List Nat),
        split_loop line fuel word arena mem = some (arena1, mem1) ∧
        arena1 = ⟨arena.base, arena.used + 8 * ptrs.length, arena.size⟩ ∧
        ptrs.length ≤ suf.length ∧
        (∀ k (hk : k < ptrs.length),
          read_u64 mem1 (arena.base + arena.used + 8 * k) = ptrs[k]) ∧
        List.Forall₂ (fun p w => line.data + word ≤ p ∧ p + w.length < line.data + line.size ∧
            (∀ j (hj : j < w.length), mem1 (p + j) = w[j]) ∧ mem1 (p + w.length) = 0 ∧
            ∀ x ∈ w, x ∈ suf)
          ptrs (maximal_runs suf) ∧
        ∀ x, (x < line.data + word ∨ (line.data + line.size ≤ x ∧
              (x < arena.base + arena.used ∨
                arena.base + arena.used + 8 * ptrs.length ≤ x))) →
          mem1 x = mem x := by
  induction fuel with
  | zero => intro suf word arena mem h; omega
  | succ fuel ih =>
    intro suf word arena mem hfuel hsz hm hlast hq hfront hroom
    have hskip : skip_spaces mem line (line.size - word) word
        = word + (suf.takeWhile is_space).length :=
      skip_spaces_takeWhile mem line suf word _ hm hsz (by omega)
    have hsplit : suf.takeWhile is_space ++ suf.dropWhile is_space = suf :=
      List.takeWhile_append_dropWhile _ _
    cases hd : suf.dropWhile is_space with
    | nil =>
      rw [hd, List.append_nil] at hsplit
      have hall : ∀ x ∈ suf, is_space x = true := List.dropWhile_eq_nil_iff.1 hd
      have hruns : maximal_runs suf = [] := by
        have := maximal_runs_spaces suf [] hall
        rwa [List.append_nil, maximal_runs_nil] at this
      refine ⟨arena, mem, [], ?_, ?_, ?_, ?_, ?_, ?_⟩
      · have : word + suf.length = line.size := hsz
        simp only [split_loop, hskip, hsplit, this, if_true]
      · simp
      · simp
      · intro k hk; simp at hk
      · rw [hruns]; exact List.Forall₂.nil
      · intro x _; rfl
    | cons a t1 =>
      obtain ⟨sep, rest, hdr, hdecomp, hwlen, hruns, hlastr, hqr, hwsub, hrsub⟩ :=
        first_word_decomp suf hlast hq a t1 hd
      rw [hd] at hsplit
      have hlen : suf.length = (suf.takeWhile is_space).length +
          (((a :: t1).takeWhile (fun c => !is_delimiter c)).length + (1 + rest.length)) := by
        conv_lhs => rw [hdecomp]
        simp only [List.length_append, List.length_cons]
        omega
      have hm1 := stored_append_right mem line.data word _ _ suf hsplit.symm hm
      have hwrest : (a :: t1).takeWhile (fun c => !is_delimiter c) ++ sep :: rest = a :: t1 := by
        rw [← hdr]; exact List.takeWhile_append_dropWhile _ _
      have hlen1 : (a :: t1).length =
          ((a :: t1).takeWhile (fun c => !is_delimiter c)).length + (1 + rest.length) := by
        conv_lhs => rw [← hwrest]
        simp only [List.length_append, List.length_cons]
        omega
      have hfind : find_delimiter mem line
          (line.size - (word + (suf.takeWhile is_space).length))
          (word + (suf.takeWhile is_space).length)
          = some (word + (suf.takeWhile is_space).length +
              ((a :: t1).takeWhile (fun c => !is_delimiter c)).length) := by
        rw [find_delimiter_takeWhile mem line (a :: t1) _ _ hm1 (by omega) (by omega), hdr]
      have hw := stored_append_left mem line.data (word + (suf.takeWhile is_space).length)
        _ _ (a :: t1) hwrest.symm hm1
      have hrest := stored_append_right mem line.data (word + (suf.takeWhile is_space).length)
        ((a :: t1).takeWhile (fun c => !is_delimiter c) ++ [sep]) rest (a :: t1)
        (by rw [List.append_assoc, List.singleton_append]; exact hwrest.symm) hm1
      generalize hwdef : (a :: t1).takeWhile (fun c => !is_delimiter c) = w at *
      generalize hspdef : (suf.takeWhile is_space).length = s at *
      have hne : ¬ word + s = line.size := by omega
      obtain ⟨hA, hM0, hMp, hMo⟩ := add_word_spec arena mem line (word + s) (word + s + w.length)
        hfront (by omega) (by omega) (by omega)
      obtain ⟨arena2, mem2, ptrs, hloop, hA2, hplen, hcells, hF, hframe⟩ :=
        ih rest (word + s + w.length + 1)
          (add_word arena mem line (word + s) (word + s + w.length)).1
          (add_word arena mem line (word + s) (word + s + w.length)).2
          (by omega) (by omega)
          (by
            intro j hj
            rw [hMo _ (by omega) (by omega), ← hrest j hj]
            congr 1
            simp only [List.length_append, List.length_cons, List.length_nil]
            omega)
          hlastr hqr (by rw [hA]; simp only; omega) (by rw [hA]; simp only; omega)
      rw [hA] at hA2 hcells hframe
      simp only at hA2 hcells hframe
      refine ⟨arena2, mem2, (line.data + (word + s)) :: ptrs, ?_, ?_, ?_, ?_, ?_, ?_⟩
      · simp only [split_loop, hskip, hne, if_false, hfind]
        exact hloop
      · rw [hA2]
        simp only [List.length_cons, Arena.mk.injEq, true_and, and_true]
        omega
      · simp only [List.length_cons]; omega
      · intro k hk
        cases k with
        | zero =>
          simp only [Nat.mul_zero, Nat.add_zero, List.getElem_cons_zero]
          rw [← hMp]
          apply read_u64_congr
          intro j hj
          apply hframe
          right
          constructor
          · omega
          · left; omega
        | succ k =>
          simp only [List.getElem_cons_succ]
          have := hcells k (by simpa using hk)
          rw [← this]
          congr 1
          omega
      · rw [hruns]
        refine List.Forall₂.cons ⟨by omega, by omega, ?_, ?_, hwsub⟩ ?_
        · intro j hj
          have e1 : line.data + (word + s) + j = line.data + (word + s + j) := by omega
          rw [e1, hframe _ (Or.inl (by omega)), hMo _ (by omega) (by omega)]
          exact hw j hj
        · have e1 : line.data + (word + s) + w.length = line.data + (word + s + w.length) := by
            omega
          rw [e1, hframe _ (Or.inl (by omega))]
          exact hM0
        · refine List.Forall₂.imp ?_ hF
          intro p v ⟨h1, h2, h3, h4, h5⟩
          exact ⟨by omega, h2, h3, h4, fun x hx => hrsub x (h5 x hx)⟩
      · intro x hx
        simp only [List.length_cons] at hx
        rw [hframe x (by omega), hMo x (by omega) (by omega)]
theorem pointer_list_of_cells (mem : Mem) (ps : List Nat) (p fuel : Nat)
    (hcells : ∀ k (hk : k < ps.length), read_u64 mem (p + 8 * k) = ps[k])
    (hnz : ∀ q ∈ ps, q ≠ 0) (hnull : read_u64 mem (p + 8 * ps.length) = 0)
    (hf : ps.length < fuel) : pointer_list mem fuel p = some ps := by
  induction ps generalizing p fuel with
  | nil =>
    obtain ⟨f, rfl⟩ : ∃ f, fuel = f + 1 := ⟨fuel - 1, by omega⟩
    simp only [List.length_nil, Nat.mul_zero, Nat.add_zero] at hnull
    simp [pointer_list, hnull]
  | cons q t ih =>
    obtain ⟨f, rfl⟩ : ∃ f, fuel = f + 1 := ⟨fuel - 1, by omega⟩
    have h0 := hcells 0 (by simp)
    simp only [Nat.mul_zero, Nat.add_zero, List.getElem_cons_zero] at h0
    have hq : q ≠ 0 := hnz q (List.mem_cons_self _ _)
    have hrec : pointer_list mem f (p + 8) = some t := by
      apply ih
      · intro k hk
        have := hcells (k + 1) (by simp; omega)
        simp only [List.getElem_cons_succ] at this
        rw [← this]
        congr 1
        omega
      · intro x hx; exact hnz x (List.mem_cons_of_mem _ hx)
      · rw [← hnull]
        congr 1
        simp only [List.length_cons]
        omega
      · simp only [List.length_cons] at hf; omega
    simp [pointer_list, h0, hq, hrec]

theorem c_string_of_stored (mem : Mem) (w : List Nat) (p fuel : Nat)
    (hw : ∀ j (hj : j < w.length), mem (p + j) = w[j]) (hz : mem (p + w.length) = 0)
    (hnz : ∀ x ∈ w, x ≠ 0) (hf : w.length < fuel) : c_string mem fuel p = some w := by
  induction w generalizing p fuel with
  | nil =>
    obtain ⟨f, rfl⟩ : ∃ f, fuel = f + 1 := ⟨fuel - 1, by omega⟩
    simp only [List.length_nil, Nat.add_zero] at hz
    simp [c_string, hz]
  | cons a t ih =>
    obtain ⟨f, rfl⟩ : ∃ f, fuel = f + 1 := ⟨fuel - 1, by omega⟩
    have h0 := hw 0 (by simp)
    simp only [Nat.add_zero, List.getElem_cons_zero] at h0
    have ha : a ≠ 0 := hnz a (List.mem_cons_self _ _)
    have hrec : c_string mem f (p + 1) = some t := by
      apply ih
      · intro j hj
        have := hw (j + 1) (by simp; omega)
        simp only [List.getElem_cons_succ] at this
        rw [← this]
        congr 1
        omega
      · rw [← hz]
        congr 1
        simp only [List.length_cons]
        omega
      · intro x hx; exact hnz x (List.mem_cons_of_mem _ hx)
      · simp only [List.length_cons] at hf; omega
    simp [c_string, h0, ha, hrec]

theorem read_bytes_of_stored (mem : Mem) (w : List Nat) (p : Nat)
    (hw : ∀ j (hj : j < w.length), mem (p + j) = w[j]) (hz : mem (p + w.length) = 0) :
    read_bytes mem p (w.length + 1) = w ++ [0] := by
  apply List.ext_getElem
  · simp [read_bytes]
  · intro i h1 h2
    simp only [read_bytes, List.getElem_map, List.getElem_range]
    by_cases hi : i < w.length
    · rw [List.getElem_append_left hi, hw i hi]
    · have hiw : i = w.length := by
        simp only [List.length_append, List.length_cons, List.length_nil] at h2; omega
      subst hiw
      rw [List.getElem_append_right (le_refl _), hz]
      simp

theorem c_strings_of_forall₂ (mem : Mem) (fuel : Nat) (ps : List Nat) (ws : List (List Nat))
    (h : List.Forall₂ (fun p w => c_string mem fuel p = some w) ps ws) :
    c_strings mem fuel ps = some ws := by
  induction h with
  | nil => rfl
  | cons hpw _ ih => simp [c_strings, hpw, ih]

theorem forall₂_left {R : Nat → List Nat → Prop} {P : Nat → Prop} {ps : List Nat}
    {ws : List (List Nat)} (h : List.Forall₂ R ps ws) (hP : ∀ p w, R p w → P p) :
    ∀ p ∈ ps, P p := by
  induction h with
  | nil => intro p hp; simp at hp
  | cons hpw _ ih =>
    intro p hp
    rcases List.mem_cons.1 hp with rfl | hp
    · exact hP _ _ hpw
    · exact ih p hp
/-- C1 (counterexample): the line `echo a<NUL>b c` with its newline ends in a
newline and holds no quote character; its maximal runs of non-whitespace bytes
are `echo`, `a<NUL>b` and `c`, but the NUL-terminated strings that `split`
returns are `echo`, `a` and `c`. -/
theorem split_cuts_word_at_nul :
    (split 12 ⟨4096, 4096, 2 ^ 36⟩
        (write_bytes (fun _ => 0) 4096 [101, 99, 104, 111, 32, 97, 0, 98, 32, 99, 10])
        ⟨4096, 11⟩).bind (fun r => word_strings r.2.2 12 r.1)
      = some [[101, 99, 104, 111], [97], [99]] ∧
    maximal_runs [101, 99, 104, 111, 32, 97, 0, 98, 32, 99, 10]
      = [[101, 99, 104, 111], [97, 0, 98], [99]] ∧
    [101, 99, 104, 111, 32, 97, 0, 98, 32, 99, 10].getLast? = some 10 ∧
    34 ∉ [101, 99, 104, 111, 32, 97, 0, 98, 32, 99, 10] := by
  decide

/-- C1 (amended): for every line that ends in a newline and holds neither a
quote character nor a NUL byte (stored below the arena frontier, with room for
the pointer cells), `split` returns, and the NUL-terminated strings at the
pointers it returns, read up to the terminating null pointer, are exactly the
maximal runs of non-whitespace bytes of the line, in order.  The line
`echo hello world` with its newline gives `echo`, `hello`, `world`. -/
theorem split_returns_maximal_runs (arena : Arena) (mem : Mem) (line : Line) (bs : List Nat)
    (fuel : Nat) (hbytes : read_bytes mem line.data line.size = bs)
    (hnl : bs.getLast? = some 10) (hq : 34 ∉ bs) (hz : 0 ∉ bs) (hdata : 0 < line.data)
    (hfront : line.data + line.size ≤ arena.base + arena.used)
    (hroom : arena.base + arena.used + 8 * (line.size + 1) ≤ U64)
    (hfuel : line.size < fuel) :
    (∃ arena1 mem1,
      split fuel arena mem line = some (arena_end arena, arena1, mem1) ∧
      word_strings mem1 fuel (arena_end arena) = some (maximal_runs bs)) ∧
    (split 18 ⟨4096, 4096, 2 ^ 36⟩
        (write_bytes (fun _ => 0) 4096
          [101, 99, 104, 111, 32, 104, 101, 108, 108, 111, 32, 119, 111, 114, 108, 100, 10])
        ⟨4096, 17⟩).bind (fun r => word_strings r.2.2 18 r.1)
      = some [[101, 99, 104, 111], [104, 101, 108, 108, 111], [119, 111, 114, 108, 100]] := by
  refine ⟨?_, by decide⟩
  have hlen : bs.length = line.size := by rw [← hbytes, read_bytes_length]
  have hm : ∀ j (hj : j < bs.length), mem (line.data + (0 + j)) = bs[j] := by
    intro j hj
    subst hbytes
    simp [read_bytes]
  obtain ⟨arena1, mem1, ptrs, hloop, hA, hplen, hcells, hF, hframe⟩ :=
    split_loop_runs line fuel bs 0 arena mem (by omega) (by omega) hm (Or.inr hnl) hq hfront
      (by omega)
  have hpush : (arena_push arena1 8).1 = arena.base + arena.used + 8 * ptrs.length := by
    rw [hA]; simp only [arena_push]; omega
  have hsplit : split fuel arena mem line = some (arena_end arena, (arena_push arena1 8).2,
      write_u64 mem1 (arena.base + arena.used + 8 * ptrs.length) 0) := by
    simp only [split, hloop, hpush]
  have hcells2 : ∀ k (hk : k < ptrs.length),
      read_u64 (write_u64 mem1 (arena.base + arena.used + 8 * ptrs.length) 0)
        (arena_end arena + 8 * k) = ptrs[k] := by
    intro k hk
    rw [← hcells k hk]
    apply read_u64_congr
    intro j hj
    apply write_u64_other
    simp only [arena_end]
    omega
  have hnz : ∀ q ∈ ptrs, q ≠ 0 :=
    @forall₂_left _ (fun q => q ≠ 0) _ _ hF (fun p w h => by have := h.1; omega)
  have hnull : read_u64 (write_u64 mem1 (arena.base + arena.used + 8 * ptrs.length) 0)
      (arena_end arena + 8 * ptrs.length) = 0 := by
    simp only [arena_end]
    rw [read_write_u64]
    rfl
  have hplist := pointer_list_of_cells _ ptrs (arena_end arena) fuel hcells2 hnz hnull
    (by omega)
  have hF2 : List.Forall₂ (fun p w => (line.data ≤ p ∧ p + w.length < line.data + line.size) ∧
      (∀ j (hj : j < w.length),
        write_u64 mem1 (arena.base + arena.used + 8 * ptrs.length) 0 (p + j) = w[j]) ∧
      write_u64 mem1 (arena.base + arena.used + 8 * ptrs.length) 0 (p + w.length) = 0 ∧
      ∀ x ∈ w, x ∈ bs) ptrs (maximal_runs bs) := by
    refine List.Forall₂.imp ?_ hF
    intro p w ⟨h1, h2, h3, h4, h5⟩
    refine ⟨⟨by omega, h2⟩, ?_, ?_, h5⟩
    · intro j hj
      rw [write_u64_other _ _ _ _ (by omega)]
      exact h3 j hj
    · rw [write_u64_other _ _ _ _ (by omega)]
      exact h4
  refine ⟨_, _, hsplit, ?_⟩
  simp only [word_strings, hplist]
  apply c_strings_of_forall₂
  refine List.Forall₂.imp ?_ hF2
  intro p w ⟨h2, h3, h4, h5⟩
  apply c_string_of_stored _ w p fuel h3 h4
  · intro x hx h0
    exact hz (h0 ▸ h5 x hx)
  · omega

theorem split_returns_maximal_runs_witness :
    ∃ arena1 mem1,
      split 7 ⟨4096, 4096, 2 ^ 36⟩ (write_bytes (fun _ => 0) 4096 [108, 115, 32, 45, 108, 10])
          ⟨4096, 6⟩
        = some (arena_end ⟨4096, 4096, 2 ^ 36⟩, arena1, mem1) ∧
      word_strings mem1 7 (arena_end ⟨4096, 4096, 2 ^ 36⟩)
        = some (maximal_runs [108, 115, 32, 45, 108, 10]) :=
  (split_returns_maximal_runs ⟨4096, 4096, 2 ^ 36⟩
    (write_bytes (fun _ => 0) 4096 [108, 115, 32, 45, 108, 10]) ⟨4096, 6⟩
    [108, 115, 32, 45, 108, 10] 7 (by decide) (by decide) (by decide) (by decide) (by decide)
    (by decide) (by decide) (by decide)).1

theorem skip_spaces_stops (mem : Mem) (line : Line) (k word : Nat)
    (hk : line.size - word ≤ k) :
    word ≤ skip_spaces mem line k word ∧
    ¬ (skip_spaces mem line k word < line.size ∧
        is_space (mem (line.data + skip_spaces mem line k word)) = true) := by
  induction k generalizing word with
  | zero =>
    simp only [skip_spaces]
    exact ⟨le_refl _, fun h => by omega⟩
  | succ k ih =>
    simp only [skip_spaces]
    split
    · have := ih (word + 1) (by omega)
      exact ⟨by omega, this.2⟩
    · next h => exact ⟨le_refl _, h⟩

theorem skip_spaces_fixed (mem : Mem) (line : Line) (k r : Nat)
    (h : ¬ (r < line.size ∧ is_space (mem (line.data + r)) = true)) :
    skip_spaces mem line k r = r := by
  cases k with
  | zero => rfl
  | succ k => simp only [skip_spaces, h, if_false]

theorem find_delimiter_ge (mem : Mem) (line : Line) (k i r : Nat)
    (h : find_delimiter mem line k i = some r) : i ≤ r ∧ r < line.size := by
  induction k generalizing i with
  | zero => simp [find_delimiter] at h
  | succ k ih =>
    simp only [find_delimiter] at h
    split at h
    · split at h
      · injection h with h; omega
      · have := ih (i + 1) h; omega
    · simp at h

/-- The step budget `line.size + 1` is enough for `split`: when the loop has
not ended within one step more than there are bytes left, it never ends. -/
theorem split_loop_budget (line : Line) (fuel : Nat) :
    ∀ (word : Nat) (arena : Arena) (mem : Mem), line.size - word < fuel →
      split_loop line fuel word arena mem = none →
      ∀ more, split_loop line more word arena mem = none := by
  induction fuel with
  | zero => intro word arena mem h; omega
  | succ fuel ih =>
    intro word arena mem hfuel hnone more
    obtain ⟨hge, hstop⟩ := skip_spaces_stops mem line (line.size - word) word (le_refl _)
    generalize hr : skip_spaces mem line (line.size - word) word = r at *
    simp only [split_loop, hr] at hnone
    by_cases hend : r = line.size
    · simp [hend] at hnone
    · simp only [hend, if_false] at hnone
      cases hf : find_delimiter mem line (line.size - r) r with
      | none =>
        have hfix : skip_spaces mem line (line.size - r) r = r :=
          skip_spaces_fixed mem line _ r hstop
        cases more with
        | zero => rfl
        | succ more =>
          simp only [split_loop, hr, hend, if_false, hf]
          exact split_loop_spins line r arena mem hfix hend hf more
      | some i =>
        rw [hf] at hnone
        simp only at hnone
        have hi := find_delimiter_ge mem line _ _ _ hf
        cases more with
        | zero => rfl
        | succ more =>
          simp only [split_loop, hr, hend, if_false, hf]
          exact ih (i + 1) _ _ (by omega) hnone more

/-- C11: for every offset `u` with `u + 15 < 2 ^ 64`, `arena_align` sets `used`
to the smallest multiple of 16 that is at least `u` (the new offset is a
multiple of 16, at least `u`, below `u + 16`, and no multiple of 16 lies between
`u` and it); an aligned offset is left as it is, aligning twice is aligning
once, and `base` and `size` are not changed. -/
theorem arena_align_rounds_up (arena : Arena) (h : arena.used + 15 < 2 ^ 64) :
    (arena_align arena).used % 16 = 0 ∧
    arena.used ≤ (arena_align arena).used ∧
    (arena_align arena).used < arena.used + 16 ∧
    (∀ m, m % 16 = 0 → arena.used ≤ m → (arena_align arena).used ≤ m) ∧
    (arena.used % 16 = 0 → arena_align arena = arena) ∧
    arena_align (arena_align arena) = arena_align arena ∧
    (arena_align arena).base = arena.base ∧
    (arena_align arena).size = arena.size := by
  have hU : U64 = 18446744073709551616 := by norm_num [U64]
  have h2 : (2 : Nat) ^ 64 = 18446744073709551616 := by norm_num
  have hu : (arena_align arena).used = (arena.used + 15) / 16 * 16 := by
    rw [arena_align_used, Nat.mod_eq_of_lt (by omega)]
  have huu : (arena_align (arena_align arena)).used = (arena_align arena).used := by
    rw [arena_align_used (arena_align arena), Nat.mod_eq_of_lt (by omega)]
    omega
  refine ⟨by omega, by omega, by omega, ?_, ?_, ?_, rfl, rfl⟩
  · intro m hm hle
    omega
  · intro ha
    have : (arena_align arena).used = arena.used := by omega
    cases arena with
    | mk b u s =>
      simp only [arena_align] at this ⊢
      simp only [Arena.mk.injEq, true_and, and_true]
      exact this
  · have hb : (arena_align (arena_align arena)).base = (arena_align arena).base := rfl
    have hs : (arena_align (arena_align arena)).size = (arena_align arena).size := rfl
    cases h1 : arena_align (arena_align arena) with
    | mk b1 u1 s1 =>
      cases h3 : arena_align arena with
      | mk b2 u2 s2 =>
        rw [h1, h3] at huu hb hs
        simp only at huu hb hs
        simp [huu, hb, hs]

theorem arena_align_rounds_up_witness :
    (arena_align ⟨4096, 17, 2 ^ 36⟩).used % 16 = 0 ∧
    (⟨4096, 17, 2 ^ 36⟩ : Arena).used ≤ (arena_align ⟨4096, 17, 2 ^ 36⟩).used ∧
    (arena_align ⟨4096, 17, 2 ^ 36⟩).used < (⟨4096, 17, 2 ^ 36⟩ : Arena).used + 16 ∧
    (∀ m, m % 16 = 0 → (⟨4096, 17, 2 ^ 36⟩ : Arena).used ≤ m →
      (arena_align ⟨4096, 17, 2 ^ 36⟩).used ≤ m) ∧
    ((⟨4096, 17, 2 ^ 36⟩ : Arena).used % 16 = 0 →
      arena_align ⟨4096, 17, 2 ^ 36⟩ = ⟨4096, 17, 2 ^ 36⟩) ∧
    arena_align (arena_align ⟨4096, 17, 2 ^ 36⟩) = arena_align ⟨4096, 17, 2 ^ 36⟩ ∧
    (arena_align ⟨4096, 17, 2 ^ 36⟩).base = (⟨4096, 17, 2 ^ 36⟩ : Arena).base ∧
    (arena_align ⟨4096, 17, 2 ^ 36⟩).size = (⟨4096, 17, 2 ^ 36⟩ : Arena).size :=
  arena_align_rounds_up ⟨4096, 17, 2 ^ 36⟩ (by decide)

/-- C20 (failing input): for exit code 0 `exit_code_to_str` stores a zero at
index 4 of the 4-byte storage buffer, one byte past its end: the byte after the
buffer, `Z` before the call, is 0 after it.  The returned pointer is index 2. -/
theorem exit_code_to_str_writes_past_storage :
    write_bytes (fun _ => 0) 1000 [65, 65, 65, 65, 90] 1004 = 90 ∧
    (exit_code_to_str 11 0 1000 (write_bytes (fun _ => 0) 1000 [65, 65, 65, 65, 90])).map
      (fun r => (r.1, r.2 1004)) = some (1002, 0) := by
  decide

/-- C13 (failing input): the line `ls`, `fork` succeeds, `waitpid` returns -1
and the uninitialised `status` happens to hold 0.  The iteration reports the
failed wait and then goes on to `WIFEXITED(status)`: it calls `setenv` and the
exit-status variable, `7` before the iteration, is `0` after it. -/
theorem wait_failure_overwrites_exit_status :
    (main_iteration ⟨5, false, -1, 0, 0, 1000, 0⟩
        ⟨⟨4096, 0, 2 ^ 36⟩, fun _ => 0, [ReadOutcome.data [108, 115, 10]],
          fun n => if n = [63] then some [55] else none⟩).1
      = [Event.prompt [36, 32], Event.fork, Event.wait,
          Event.process_failure [108, 115] [119, 97, 105, 116], Event.setenv [63] [48]] ∧
    exit_status_after (main_iteration ⟨5, false, -1, 0, 0, 1000, 0⟩
        ⟨⟨4096, 0, 2 ^ 36⟩, fun _ => 0, [ReadOutcome.data [108, 115, 10]],
          fun n => if n = [63] then some [55] else none⟩).2
      = some (some [48]) := by
  decide

/-! ## Facts about the diagnostics -/

theorem skip_written_step (fuel result : Nat) (s : WritevState)
    (h : (s.iov s.index).iov_len ≤ result) :
    skip_written (fuel + 1) result s =
      skip_written fuel (result - (s.iov s.index).iov_len)
        { s with index := s.index + 1, iovcnt := s.iovcnt - 1,
                 touched := s.touched ++ [s.index] } := by
  simp [skip_written, h]

theorem skip_written_stop (fuel result : Nat) (s : WritevState)
    (h : result < (s.iov s.index).iov_len) :
    skip_written (fuel + 1) result s
      = some (result, { s with touched := s.touched ++ [s.index] }) := by
  have : ¬ result ≥ (s.iov s.index).iov_len := by omega
  simp [skip_written, this]

/-- When `result` is the total length of the entries `es` that lie at the
pointer, the inner loop of `writev_looped` steps over all of them and then tests
the entry that follows them. -/
theorem skip_written_all (es : List Iovec) (fuel : Nat) (s : WritevState)
    (hes : ∀ j (hj : j < es.length), s.iov (s.index + j) = es[j])
    (hfuel : es.length < fuel) (hnext : (s.iov (s.index + es.length)).iov_len ≠ 0) :
    skip_written fuel (es.map Iovec.iov_len).sum s
      = some (0, { s with index := s.index + es.length, iovcnt := s.iovcnt - es.length,
                          touched := s.touched ++ List.range' s.index (es.length + 1) }) := by
  induction es generalizing fuel s with
  | nil =>
    obtain ⟨f, rfl⟩ : ∃ f, fuel = f + 1 := ⟨fuel - 1, by simp at hfuel; omega⟩
    simp only [List.length_nil, Nat.add_zero] at hnext
    rw [List.map_nil, List.sum_nil, skip_written_stop f 0 s (by omega)]
    simp [List.range']
  | cons e es ih =>
    obtain ⟨f, rfl⟩ : ∃ f, fuel = f + 1 := ⟨fuel - 1, by omega⟩
    have h0 := hes 0 (by simp)
    simp only [Nat.add_zero, List.getElem_cons_zero] at h0
    rw [List.map_cons, List.sum_cons, skip_written_step f _ s (by rw [h0]; omega), h0,
      Nat.add_sub_cancel_left]
    rw [ih f _ ?_ ?_ ?_]
    · simp only [List.length_cons, Nat.cast_add, Nat.cast_one, List.range'_succ s.index,
        List.append_assoc, List.singleton_append, Option.some.injEq, Prod.mk.injEq, true_and]
      congr 1
      · omega
      · omega
    · intro j hj
      have := hes (j + 1) (by simp; omega)
      simp only [List.getElem_cons_succ] at this
      rw [← this]
      simp only
      congr 1
      omega
    · simp only [List.length_cons] at hfuel; omega
    · simp only
      rw [show s.index + 1 + es.length = s.index + (e :: es).length by simp; omega]
      exact hnext

theorem process_failure_gather (command operation error : List Nat) (beyond : Nat → Iovec) :
    gather (iov_array (process_failure_iov command operation error) beyond) 7 0
      = bytes "Error: Failed to " ++ operation ++ [32, 112, 114, 111, 103, 114, 97, 109, 32, 34]
          ++ command ++ [34, 58, 32] ++ error ++ [46, 10] := by
  simp [gather, iov_array, process_failure_iov, iov_string]

theorem writev_complete (s : WritevState) (n : Nat) (rest : List WritevOutcome)
    (hr : s.results = WritevOutcome.wrote n :: rest)
    (hn : (gather s.iov s.iovcnt.toNat s.index).length ≤ n) :
    writev s = ((((gather s.iov s.iovcnt.toNat s.index).length : Nat) : Int),
      { s with results := rest, sent := s.sent ++ gather s.iov s.iovcnt.toNat s.index }) := by
  simp only [writev, hr, List.take_of_length_le hn]

theorem writev_looped_loop_step (fuel : Nat) (s s1 : WritevState) (r res : Nat)
    (hcnt : s.iovcnt > 0) (hw : (writev s).1 = (r : Int))
    (hskip : skip_written (fuel + 1) r (writev s).2 = some (res, s1)) :
    writev_looped_loop (fuel + 1) s = writev_looped_loop fuel (shorten res s1) := by
  have h1 : ¬ ((r : Nat) : Int) = -1 := by omega
  rw [writev_looped_loop]
  simp only [hcnt, if_true, hw, h1, if_false, Int.toNat_ofNat, hskip]

theorem writev_looped_loop_done (fuel : Nat) (s : WritevState) (h : ¬ s.iovcnt > 0) :
    writev_looped_loop (fuel + 1) s = some (false, s) := by
  rw [writev_looped_loop]
  simp only [h, if_false]

/-- When the first call of `writev` takes all the bytes it is offered (and the
word after the array is not zero), the bytes `process_failure` has written to
the error stream are `Error: Failed to `, the operation, ` program "`, the
command, `": `, the error text and `.` followed by a newline, and
`writev_looped` returns false. -/
theorem process_failure_complete_write (command operation error : List Nat) (beyond : Nat → Iovec) :
    gather (iov_array (process_failure_iov command operation error) beyond) 7 0
      = bytes "Error: Failed to " ++ operation ++ [32, 112, 114, 111, 103, 114, 97, 109, 32, 34]
          ++ command ++ [34, 58, 32] ++ error ++ [46, 10] ∧
    (∀ (fuel n : Nat) (rest : List WritevOutcome),
      8 ≤ fuel →
      (gather (iov_array (process_failure_iov command operation error) beyond) 7 0).length ≤ n →
      (beyond 0).iov_len ≠ 0 →
      ∃ st, process_failure fuel command operation error beyond (WritevOutcome.wrote n :: rest)
          = some (false, st) ∧
        st.sent = bytes "Error: Failed to " ++ operation
          ++ [32, 112, 114, 111, 103, 114, 97, 109, 32, 34]
          ++ command ++ [34, 58, 32] ++ error ++ [46, 10]) := by
  refine ⟨process_failure_gather command operation error beyond, ?_⟩
  intro fuel n rest hfuel hn hb
  obtain ⟨f, rfl⟩ : ∃ f, fuel = f + 2 := ⟨fuel - 2, by omega⟩
  have hg := process_failure_gather command operation error beyond
  have hw := writev_complete
    { iov := iov_array (process_failure_iov command operation error) beyond, index := 0,
      iovcnt := 7, results := WritevOutcome.wrote n :: rest, sent := [], touched := [] }
    n rest rfl hn
  have hsum : (gather (iov_array (process_failure_iov command operation error) beyond) 7 0).length
      = ((process_failure_iov command operation error).map Iovec.iov_len).sum := by
    rw [hg]
    simp [process_failure_iov, iov_string, bytes]
    omega
  have hskip := skip_written_all (process_failure_iov command operation error) (f + 2)
    { iov := iov_array (process_failure_iov command operation error) beyond, index := 0,
      iovcnt := 7, results := rest,
      sent := [] ++ gather (iov_array (process_failure_iov command operation error) beyond) 7 0,
      touched := [] }
    (by
      intro j hj
      simp only [iov_array, Nat.zero_add, hj, dite_true])
    (by simp [process_failure_iov]; omega)
    (by simpa [iov_array, process_failure_iov] using hb)
  have h7 : (7 : Int).toNat = 7 := rfl
  simp only [h7] at hw
  refine ⟨{ iov := iov_array (process_failure_iov command operation error) beyond,
             index := 0 + (process_failure_iov command operation error).length,
             iovcnt := 7 - ((process_failure_iov command operation error).length : Nat),
             results := rest,
             sent := [] ++ gather (iov_array (process_failure_iov command operation error) beyond) 7 0,
             touched := [] ++ List.range' 0
               ((process_failure_iov command operation error).length + 1) }, ?_, ?_⟩
  · simp only [process_failure, writev_looped]
    rw [writev_looped_loop_step (f + 1) _ _ _ 0
      (by show (7 : Int) > 0; decide) (by rw [hw]) (by rw [hw, hsum]; exact hskip)]
    have hz : shorten 0
        { iov := iov_array (process_failure_iov command operation error) beyond,
          index := 0 + (process_failure_iov command operation error).length,
          iovcnt := 7 - ((process_failure_iov command operation error).length : Nat),
          results := rest,
          sent := [] ++ gather (iov_array (process_failure_iov command operation error) beyond) 7 0,
          touched := [] ++ List.range' 0
            ((process_failure_iov command operation error).length + 1) }
        = { iov := iov_array (process_failure_iov command operation error) beyond,
            index := 0 + (process_failure_iov command operation error).length,
            iovcnt := 7 - ((process_failure_iov command operation error).length : Nat),
            results := rest,
            sent := [] ++ gather (iov_array (process_failure_iov command operation error) beyond) 7 0,
            touched := [] ++ List.range' 0
              ((process_failure_iov command operation error).length + 1) } := by
      simp [shorten, process_failure_iov]
    rw [hz, writev_looped_loop_done f _ (by simp [process_failure_iov])]
  · simp only [List.nil_append]
    exact hg

theorem process_failure_complete_write_example :
    ∃ st, process_failure 8 [108, 115] (bytes "fork") (bytes "Cannot allocate memory")
          (fun _ => ⟨[], 1⟩) (WritevOutcome.wrote 100 :: [])
        = some (false, st) ∧
      st.sent = bytes "Error: Failed to " ++ bytes "fork"
        ++ [32, 112, 114, 111, 103, 114, 97, 109, 32, 34]
        ++ [108, 115] ++ [34, 58, 32] ++ bytes "Cannot allocate memory" ++ [46, 10] :=
  (process_failure_complete_write [108, 115] (bytes "fork") (bytes "Cannot allocate memory")
    (fun _ => ⟨[], 1⟩)).2 8 100 [] (by decide) (by decide) (by decide)

/-- C14 (failing input): `process_failure("ls", "fork")` with the error text
`Cannot allocate memory`, where the first call of `writev` writes 5 bytes and
the second writes all it is offered.  `writev_looped` shortens `iov_len` of the
first entry by 5 but leaves its `iov_base` where it was, so the second call
starts again at the first byte: the error stream receives `Error` followed by
`Error: Faile`, `fork`, ` program "`, `ls`, `": `, `Cannot allocate memory` and
`.` with a newline, which is not the diagnostic
`Error: Failed to fork program "ls": Cannot allocate memory.` with its
newline. -/
theorem process_failure_garbles_message :
    (process_failure 9 [108, 115] (bytes "fork") (bytes "Cannot allocate memory")
        (fun _ => ⟨[], 1⟩) [WritevOutcome.wrote 5]).map (fun r => (r.1, r.2.sent))
      = some (false, bytes "Error" ++ bytes "Error: Faile" ++ bytes "fork"
          ++ [32, 112, 114, 111, 103, 114, 97, 109, 32, 34]
          ++ [108, 115] ++ [34, 58, 32] ++ bytes "Cannot allocate memory" ++ [46, 10]) ∧
    (process_failure 9 [108, 115] (bytes "fork") (bytes "Cannot allocate memory")
        (fun _ => ⟨[], 1⟩) [WritevOutcome.wrote 5]).map (fun r => r.2.sent)
      ≠ some (bytes "Error: Failed to " ++ bytes "fork"
          ++ [32, 112, 114, 111, 103, 114, 97, 109, 32, 34]
          ++ [108, 115] ++ [34, 58, 32] ++ bytes "Cannot allocate memory" ++ [46, 10]) := by
  decide

/-- C18 (failing input): one entry holding `abcd`, and two successful calls of
`writev` that write 2 bytes each.  After the first call `writev_looped` shortens
`iov_len` to 2 but leaves `iov_base` where it was, so the second call writes
`ab` again: the bytes sent are `abab`, not `abcd`, and the function returns
false. -/
theorem writev_looped_resends_bytes :
    (writev_looped 4 (iov_array [iov_string [97, 98, 99, 100]] (fun _ => ⟨[], 1⟩)) 1
        [WritevOutcome.wrote 2, WritevOutcome.wrote 2]).map (fun r => (r.1, r.2.sent))
      = some (false, [97, 98, 97, 98]) := by
  decide

/-- C19 (failing input): the 7 entries built by `process_failure`, all written
by one call of `writev`.  After stepping over entry 6 the loop
`while (result >= iov->iov_len)` tests once more and reads `iov_len` of the
entry at index 7, which is not in the array. -/
theorem writev_looped_reads_past_array :
    (process_failure 8 [108, 115] (bytes "fork") (bytes "Cannot allocate memory")
        (fun _ => ⟨[], 1⟩) [WritevOutcome.wrote 100]).map (fun r => (r.1, r.2.touched))
      = some (false, [0, 1, 2, 3, 4, 5, 6, 7]) := by
  decide

/-! ## The line lies below the arena frontier -/

theorem push_align_used (arena : Arena) (n : Nat) (h : arena.used + n + 15 < U64) :
    (arena_align (arena_push arena n).2).base = arena.base ∧
    arena.used + n ≤ (arena_align (arena_push arena n).2).used ∧
    (arena_align (arena_push arena n).2).used ≤ arena.used + n + 15 := by
  have hU : U64 = 18446744073709551616 := by norm_num [U64]
  have h1 : (arena_push arena n).2.used = arena.used + n := by
    simp only [arena_push]
    exact Nat.mod_eq_of_lt (by omega)
  have h2 := arena_align_used (arena_push arena n).2
  rw [h1, Nat.mod_eq_of_lt (by omega)] at h2
  refine ⟨rfl, ?_, ?_⟩ <;> omega

/-- Invariant of the loop of `read_line`, as long as `used` does not wrap: on
return the line ends at or below the arena frontier. -/
theorem read_line_loop_below_frontier (c u0 fuel : Nat) :
    ∀ (s : ReadState) (n : Nat) (line : Line) (arena1 : Arena) (mem1 : Mem)
      (input1 : List ReadOutcome),
      s.input.length < n →
      s.arena.used + n * (c + 15) < U64 →
      0 ≤ s.result → s.result.toNat ≤ c →
      u0 + s.line.size + c ≤ s.arena.used + s.result.toNat →
      read_line_loop c fuel s = Ret.ok (line, arena1, mem1, input1) →
      line.data = s.line.data ∧ arena1.base = s.arena.base ∧ u0 + line.size ≤ arena1.used := by
  induction fuel with
  | zero => intro s n line arena1 mem1 input1 _ _ _ _ _ h; simp [read_line_loop] at h
  | succ fuel ih =>
    intro s n line arena1 mem1 input1 hn hwrap hr0 hrc hinv h
    obtain ⟨m, rfl⟩ : ∃ m, n = m + 1 := ⟨n - 1, by omega⟩
    rw [Nat.succ_mul] at hwrap
    obtain ⟨hb, hlo, hhi⟩ := push_align_used s.arena s.result.toNat (by omega)
    have hspec := read_looped_spec s.line.data c s.mem s.input
    have hrest := read_looped_rest_length s.line.data c s.mem s.input
    rcases hr : read_looped s.line.data c s.mem s.input with ⟨r, m2, rest⟩
    rw [hr] at hspec hrest
    simp only at hspec hrest
    simp only [read_line_loop, hr] at h
    split at h
    · simp at h
    · next hr1 =>
      rcases hspec with h1 | ⟨bs, hbl, hbc, _⟩
      · exact absurd h1.1 hr1
      · split at h
        · injection h with h
          simp only [Prod.mk.injEq] at h
          obtain ⟨hl, ha, _, _⟩ := h
          subst hl
          subst ha
          exact ⟨rfl, hb, by omega⟩
        · next hr0' =>
          have hrn : r.toNat = bs.length := by omega
          split at h
          · next i hi =>
            injection h with h
            simp only [Prod.mk.injEq] at h
            obtain ⟨hl, ha, _, _⟩ := h
            subst hl
            subst ha
            have := find_newline_ge _ _ _ _ _ hi
            exact ⟨rfl, hb, by simp only; omega⟩
          · have hne : s.input ≠ [] := by
              intro he
              rw [he] at hr
              simp [read_looped] at hr
              omega
            have hlt : rest.length < s.input.length := by
              rcases hrest with h0 | h0
              · exact absurd h0 hne
              · exact h0
            have := ih _ m line arena1 mem1 input1 (by simp only; omega)
              (by simp only; omega) (by simp only; omega) (by simp only; omega)
              (by simp only; omega) h
            simp only at this
            exact ⟨this.1, by rw [this.2.1]; exact hb, this.2.2⟩

/-- C17 (counterexample): a starting offset near the top of the `u64` range.
With `used = 2 ^ 64 - 16`, chunk size 16 and one read that delivers `a` and a
newline, the push wraps `used` to 0: the Line returned has offset
`2 ^ 64 - 16` and size 2, above `used = 0`. -/
theorem read_line_frontier_wraps :
    ∃ line arena1 mem1,
      read_line 2 ⟨4096, 2 ^ 64 - 16, 2 ^ 36⟩ 16 (fun _ => 0) [ReadOutcome.data [97, 10]]
        = Ret.ok (line, arena1, mem1, []) ∧
      ¬ ((line.data - 4096) + line.size ≤ arena1.used) :=
  ⟨_, _, _, rfl, by decide⟩

/-- C17 (amended): on every return from `read_line`, for every chunk size and
every sequence of read results, as long as the `u64` offset cannot wrap during
the call (starting offset + (number of read outcomes + 1) * (chunk size + 15)
is below `2 ^ 64`), the returned Line starts at the starting offset and lies
inside the region handed out: offset + size is at most the new `used`, so the
frontier, where `split` puts the word pointers, is at or above the end of the
line. -/
theorem read_line_below_frontier (arena : Arena) (c : Nat) (mem : Mem)
    (input : List ReadOutcome) (fuel : Nat) (line : Line) (arena1 : Arena) (mem1 : Mem)
    (input1 : List ReadOutcome)
    (hwrap : arena.used + (input.length + 1) * (c + 15) < 2 ^ 64)
    (h : read_line fuel arena c mem input = Ret.ok (line, arena1, mem1, input1)) :
    line.data = arena.base + arena.used ∧
    arena1.base = arena.base ∧
    (line.data - arena.base) + line.size ≤ arena1.used ∧
    line.data + line.size ≤ arena_end arena1 := by
  have := read_line_loop_below_frontier c arena.used fuel
    { arena := arena, mem := mem, input := input,
      line := { data := arena_end arena, size := 0 }, result := c }
    (input.length + 1) line arena1 mem1 input1 (by simp) hwrap (by simp) (by simp) (by simp) h
  simp only [arena_end] at this ⊢
  obtain ⟨h1, h2, h3⟩ := this
  rw [h1, h2]
  refine ⟨rfl, rfl, by omega, by omega⟩

theorem read_line_below_frontier_witness :
    (⟨4096, 2⟩ : Line).data = (⟨4096, 0, 2 ^ 36⟩ : Arena).base + (⟨4096, 0, 2 ^ 36⟩ : Arena).used ∧
    (arena_align (arena_push ⟨4096, 0, 2 ^ 36⟩ 4096).2).base = (⟨4096, 0, 2 ^ 36⟩ : Arena).base ∧
    ((⟨4096, 2⟩ : Line).data - (⟨4096, 0, 2 ^ 36⟩ : Arena).base) + (⟨4096, 2⟩ : Line).size
      ≤ (arena_align (arena_push ⟨4096, 0, 2 ^ 36⟩ 4096).2).used ∧
    (⟨4096, 2⟩ : Line).data + (⟨4096, 2⟩ : Line).size
      ≤ arena_end (arena_align (arena_push ⟨4096, 0, 2 ^ 36⟩ 4096).2) :=
  read_line_below_frontier ⟨4096, 0, 2 ^ 36⟩ 4096 (fun _ => 0) [ReadOutcome.data [97, 10]] 2
    ⟨4096, 2⟩ (arena_align (arena_push ⟨4096, 0, 2 ^ 36⟩ 4096).2)
    (write_bytes (fun _ => 0) 4096 [97, 10]) [] (by decide) rfl

/-! ## `split` on any line that ends in a newline -/

theorem skip_spaces_skipped (mem : Mem) (line : Line) (k word : Nat) :
    ∀ j, word ≤ j → j < skip_spaces mem line k word →
      is_space (mem (line.data + j)) = true := by
  induction k generalizing word with
  | zero => intro j h1 h2; simp only [skip_spaces] at h2; omega
  | succ k ih =>
    intro j h1 h2
    simp only [skip_spaces] at h2
    split at h2
    · next hc =>
      by_cases hj : j = word
      · rw [hj]; exact hc.2
      · exact ih (word + 1) j (by omega) h2
    · omega

theorem skip_spaces_le_size (mem : Mem) (line : Line) (k word : Nat) (h : word ≤ line.size) :
    skip_spaces mem line k word ≤ line.size := by
  induction k generalizing word with
  | zero => exact h
  | succ k ih =>
    simp only [skip_spaces]
    split
    · next hc => exact ih (word + 1) (by omega)
    · exact h

theorem find_delimiter_spec (mem : Mem) (line : Line) (k i r : Nat)
    (h : find_delimiter mem line k i = some r) :
    i ≤ r ∧ r < line.size ∧ is_delimiter (mem (line.data + r)) = true ∧
    ∀ j, i ≤ j → j < r → is_delimiter (mem (line.data + j)) = false := by
  induction k generalizing i with
  | zero => simp [find_delimiter] at h
  | succ k ih =>
    simp only [find_delimiter] at h
    split at h
    · next hi =>
      split at h
      · next hd =>
        injection h with h
        subst h
        exact ⟨le_refl _, hi, hd, fun j h1 h2 => by omega⟩
      · next hd =>
        obtain ⟨h1, h2, h3, h4⟩ := ih (i + 1) h
        refine ⟨by omega, h2, h3, ?_⟩
        intro j hj1 hj2
        by_cases hji : j = i
        · rw [hji]; simpa using hd
        · exact h4 j (by omega) hj2
    · simp at h

theorem find_delimiter_exists (mem : Mem) (line : Line) (k i e : Nat) (hie : i ≤ e)
    (he : e < line.size) (hd : is_delimiter (mem (line.data + e)) = true)
    (hk : line.size - i ≤ k) : ∃ r, find_delimiter mem line k i = some r := by
  induction k generalizing i with
  | zero => omega
  | succ k ih =>
    have hi : i < line.size := by omega
    simp only [find_delimiter, hi, if_true]
    split
    · exact ⟨i, rfl⟩
    · next hnd =>
      have hne : i ≠ e := by
        intro h; rw [h] at hnd; exact hnd hd
      exact ih (i + 1) (by omega) (by omega)

/-- The loop of `split` on the rest of a line that ends in a newline, whatever
its bytes: it ends; it adds one word per span `(start, stop)` found, in order;
the cell of a word holds the address of `start`; the bytes from `start` to
`stop` are no delimiters and the byte at `stop` is one; the line is changed
only at the `stop` positions, which become 0; nothing else but the new cells
is written. -/
theorem split_loop_spans (line : Line) (fuel : Nat) :
    ∀ (word : Nat) (arena : Arena) (mem : Mem),
      line.size - word < fuel →
      word ≤ line.size →
      (word < line.size → mem (line.data + (line.size - 1)) = 10) →
      line.data + line.size ≤ arena.base + arena.used →
      arena.base + arena.used + 8 * (line.size - word) < U64 →
      ∃ (arena1 : Arena) (mem1 : Mem) (spans : List (Nat × Nat)),
        split_loop line fuel word arena mem = some (arena1, mem1) ∧
        arena1 = ⟨arena.base, arena.used + 8 * spans.length, arena.size⟩ ∧
        spans.length ≤ line.size - word ∧
        (∀ k (hk : k < spans.length),
          read_u64 mem1 (arena.base + arena.used + 8 * k) = line.data + spans[k].1) ∧
        (∀ sp ∈ spans, word ≤ sp.1 ∧ sp.1 ≤ sp.2 ∧ sp.2 < line.size ∧
          is_delimiter (mem (line.data + sp.2)) = true ∧
          (∀ j, sp.1 ≤ j → j < sp.2 → is_delimiter (mem (line.data + j)) = false) ∧
          (sp.1 = word ∨ is_delimiter (mem (line.data + (sp.1 - 1))) = true) ∧
          (sp.1 = sp.2 → mem (line.data + sp.1) = 34)) ∧
        (∀ i, i < line.size →
          mem1 (line.data + i) = if i ∈ spans.map Prod.snd then 0 else mem (line.data + i)) ∧
        ∀ x, (x < line.data ∨ (line.data + line.size ≤ x ∧
              (x < arena.base + arena.used ∨
                arena.base + arena.used + 8 * spans.length ≤ x))) →
          mem1 x = mem x := by
  induction fuel with
  | zero => intro word arena mem h; omega
  | succ fuel ih =>
    intro word arena mem hfuel hword hlast hfront hroom
    obtain ⟨hge, hstop⟩ := skip_spaces_stops mem line (line.size - word) word (le_refl _)
    have hle := skip_spaces_le_size mem line (line.size - word) word hword
    have hskipped := skip_spaces_skipped mem line (line.size - word) word
    generalize hr : skip_spaces mem line (line.size - word) word = r at *
    by_cases hend : r = line.size
    · refine ⟨arena, mem, [], ?_, ?_, ?_, ?_, ?_, ?_, ?_⟩
      · simp only [split_loop, hr, hend, if_true]
      · simp
      · simp
      · intro k hk; simp at hk
      · intro sp hsp; simp at hsp
      · intro i _; simp
      · intro x _; rfl
    · have hrlt : r < line.size := by omega
      have hns : ¬ is_space (mem (line.data + r)) = true := fun h => hstop ⟨hrlt, h⟩
      have hnl : mem (line.data + (line.size - 1)) = 10 := hlast (by omega)
      obtain ⟨e, hfind⟩ := find_delimiter_exists mem line (line.size - r) r (line.size - 1)
        (by omega) (by omega) (by rw [hnl]; decide) (le_refl _)
      obtain ⟨hre, hes, hed, hnone⟩ := find_delimiter_spec mem line _ _ _ hfind
      obtain ⟨hA, hM0, hMp, hMo⟩ := add_word_spec arena mem line r e hfront hes hre (by omega)
      obtain ⟨arena2, mem2, spans, hloop, hA2, hplen, hcells, hprops, hbytes, hframe⟩ :=
        ih (e + 1) (add_word arena mem line r e).1 (add_word arena mem line r e).2
          (by omega) (by omega)
          (by
            intro h
            rw [hMo _ (by omega) (by omega)]
            exact hnl)
          (by rw [hA]; simp only; omega) (by rw [hA]; simp only; omega)
      rw [hA] at hA2 hcells hframe
      simp only at hA2 hcells hframe
      have hsame : ∀ i, e + 1 ≤ i → i < line.size →
          (add_word arena mem line r e).2 (line.data + i) = mem (line.data + i) :=
        fun i h1 h2 => hMo _ (by omega) (by omega)
      refine ⟨arena2, mem2, (r, e) :: spans, ?_, ?_, ?_, ?_, ?_, ?_, ?_⟩
      · simp only [split_loop, hr, hend, if_false, hfind]
        exact hloop
      · rw [hA2]
        simp only [List.length_cons, Arena.mk.injEq, true_and, and_true]
        omega
      · simp only [List.length_cons]; omega
      · intro k hk
        cases k with
        | zero =>
          simp only [Nat.mul_zero, Nat.add_zero, List.getElem_cons_zero]
          rw [← hMp]
          apply read_u64_congr
          intro j hj
          apply hframe
          right
          constructor
          · omega
          · left; omega
        | succ k =>
          simp only [List.getElem_cons_succ]
          have := hcells k (by simpa using hk)
          rw [← this]
          congr 1
          omega
      · intro sp hsp
        rcases List.mem_cons.1 hsp with rfl | hsp
        · refine ⟨hge, hre, hes, hed, hnone, ?_, ?_⟩
          · by_cases hrw : r = word
            · exact Or.inl hrw
            · right
              have := hskipped (r - 1) (by omega) (by omega)
              simp [is_delimiter, this]
          · intro hre2
            simp only at hre2
            subst hre2
            simp only [is_delimiter, Bool.or_eq_true, decide_eq_true_eq] at hed
            rcases hed with h | h
            · exact absurd h hns
            · exact h
        · obtain ⟨h1, h2, h3, h4, h5, h6, h7⟩ := hprops sp hsp
          refine ⟨by omega, h2, h3, ?_, ?_, ?_, ?_⟩
          · rw [← hsame sp.2 (by omega) h3]; exact h4
          · intro j hj1 hj2
            rw [← hsame j (by omega) (by omega)]
            exact h5 j hj1 hj2
          · right
            rcases h6 with h6 | h6
            · rw [h6, Nat.add_sub_cancel]; exact hed
            · by_cases hs : sp.1 = e + 1
              · rw [hs, Nat.add_sub_cancel]; exact hed
              · rw [← hsame (sp.1 - 1) (by omega) (by omega)]; exact h6
          · intro hs
            rw [← hsame sp.1 (by omega) (by omega)]
            exact h7 hs
      · intro i hi
        rw [hbytes i hi]
        simp only [List.map_cons, List.mem_cons]
        by_cases hie : i = e
        · subst hie
          by_cases hm : i ∈ spans.map Prod.snd
          · simp [hm]
          · simp only [hm, if_false, true_or, if_true]
            exact hM0
        · by_cases hm : i ∈ spans.map Prod.snd
          · simp [hm]
          · simp only [hm, if_false, hie, or_self]
            exact hMo _ (by omega) (by omega)
      · intro x hx
        simp only [List.length_cons] at hx
        rw [hframe x (by omega), hMo x (by omega) (by omega)]

/-- What `split` returns on a line that ends in a newline: the pointers to the
starts of the spans, the properties of the spans, and the bytes of the line
after the call. -/
theorem split_spans (arena : Arena) (mem : Mem) (line : Line) (fuel : Nat)
    (hsize : 1 ≤ line.size) (hnl : mem (line.data + (line.size - 1)) = 10)
    (hdata : 0 < line.data) (hfront : line.data + line.size ≤ arena.base + arena.used)
    (hroom : arena.base + arena.used + 8 * (line.size + 1) ≤ U64) (hfuel : line.size < fuel) :
    ∃ (arena1 : Arena) (mem1 : Mem) (spans : List (Nat × Nat)),
      split fuel arena mem line = some (arena_end arena, arena1, mem1) ∧
      pointer_list mem1 fuel (arena_end arena) = some (spans.map (fun sp => line.data + sp.1)) ∧
      (∀ sp ∈ spans, sp.1 ≤ sp.2 ∧ sp.2 < line.size ∧
        is_delimiter (mem (line.data + sp.2)) = true ∧
        (∀ j, sp.1 ≤ j → j < sp.2 → is_delimiter (mem (line.data + j)) = false) ∧
        (sp.1 = 0 ∨ is_delimiter (mem (line.data + (sp.1 - 1))) = true) ∧
        (sp.1 = sp.2 → mem (line.data + sp.1) = 34)) ∧
      (∀ i, i < line.size →
        mem1 (line.data + i) = if i ∈ spans.map Prod.snd then 0 else mem (line.data + i)) := by
  obtain ⟨arena1, mem1, spans, hloop, hA, hplen, hcells, hprops, hbytes, hframe⟩ :=
    split_loop_spans line fuel 0 arena mem (by omega) (by omega) (fun _ => hnl) hfront
      (by omega)
  have hpush : (arena_push arena1 8).1 = arena.base + arena.used + 8 * spans.length := by
    rw [hA]; simp only [arena_push]; omega
  refine ⟨(arena_push arena1 8).2,
    write_u64 mem1 (arena.base + arena.used + 8 * spans.length) 0, spans, ?_, ?_, ?_, ?_⟩
  · simp only [split, hloop, hpush]
  · apply pointer_list_of_cells
    · intro k hk
      simp only [List.length_map] at hk
      simp only [List.getElem_map]
      rw [← hcells k hk]
      apply read_u64_congr
      intro j hj
      apply write_u64_other
      simp only [arena_end]
      omega
    · intro q hq
      obtain ⟨sp, _, rfl⟩ := List.mem_map.1 hq
      omega
    · simp only [arena_end, List.length_map]
      rw [read_write_u64]
      rfl
    · simp only [List.length_map]; omega
  · intro sp hsp
    obtain ⟨_, h2, h3, h4, h5, h6, h7⟩ := hprops sp hsp
    exact ⟨h2, h3, h4, h5, h6, h7⟩
  · intro i hi
    rw [write_u64_other _ _ _ _ (by omega)]
    exact hbytes i hi

theorem c_strings_map (mem : Mem) (n : Nat) (f : Nat × Nat → Nat) (g : Nat × Nat → List Nat)
    (l : List (Nat × Nat)) (h : ∀ sp ∈ l, c_string mem n (f sp) = some (g sp)) :
    c_strings mem n (l.map f) = some (l.map g) := by
  induction l with
  | nil => rfl
  | cons a t ih =>
    have h1 := h a (List.mem_cons_self _ _)
    have h2 := ih (fun sp hsp => h sp (List.mem_cons_of_mem _ hsp))
    simp [c_strings, h1, h2]

/-- C15 (counterexample): three lines that end in a newline.  In `echo "hi"`
the opening quote stands where a word would start and `split` returns an empty
word for it: the words are `echo`, the empty string and `hi`.  In `<NUL>ab` the
one word returned is the empty string, and it starts at no quote.  In `a<NUL>b`
the one word returned is `a`, and the byte after it in the line is a NUL, not
a space, tab, newline or quote. -/
theorem split_returns_empty_word_at_quote :
    (split 11 ⟨4096, 4096, 2 ^ 36⟩
        (write_bytes (fun _ => 0) 4096 [101, 99, 104, 111, 32, 34, 104, 105, 34, 10])
        ⟨4096, 10⟩).bind (fun r => word_strings r.2.2 11 r.1)
      = some [[101, 99, 104, 111], [], [104, 105]] ∧
    (split 5 ⟨4096, 4096, 2 ^ 36⟩ (write_bytes (fun _ => 0) 4096 [0, 97, 98, 10])
        ⟨4096, 4⟩).bind (fun r => word_strings r.2.2 5 r.1)
      = some [[]] ∧
    (split 5 ⟨4096, 4096, 2 ^ 36⟩ (write_bytes (fun _ => 0) 4096 [97, 0, 98, 10])
        ⟨4096, 4⟩).bind (fun r => word_strings r.2.2 5 r.1)
      = some [[97]] ∧
    is_delimiter 0 = false := by
  decide

/-- C15 (amended): for every line that ends in a newline and holds no NUL byte,
quotes allowed, `split` returns, and the NUL-terminated strings at the pointers
it returns are runs of bytes of the line, one for each span `(start, stop)` of
a list of spans: the bytes `line.data[start .. stop)`.  Every such word holds no
space, tab, newline or quote, is followed in the line by such a byte, and
starts at the start of the line or after such a byte.  It has at least one
byte unless it starts at a quote: there the word is empty. -/
theorem split_words_are_delimited_runs (arena : Arena) (mem : Mem) (line : Line) (fuel : Nat)
    (hsize : 1 ≤ line.size) (hnl : mem (line.data + (line.size - 1)) = 10)
    (hz : ∀ i, i < line.size → mem (line.data + i) ≠ 0)
    (hdata : 0 < line.data) (hfront : line.data + line.size ≤ arena.base + arena.used)
    (hroom : arena.base + arena.used + 8 * (line.size + 1) ≤ U64) (hfuel : line.size < fuel) :
    ∃ (arena1 : Arena) (mem1 : Mem) (spans : List (Nat × Nat)),
      split fuel arena mem line = some (arena_end arena, arena1, mem1) ∧
      word_strings mem1 fuel (arena_end arena)
        = some (spans.map (fun sp => read_bytes mem (line.data + sp.1) (sp.2 - sp.1))) ∧
      ∀ sp ∈ spans, sp.1 ≤ sp.2 ∧ sp.2 < line.size ∧
        (∀ c ∈ read_bytes mem (line.data + sp.1) (sp.2 - sp.1), is_delimiter c = false) ∧
        is_delimiter (mem (line.data + sp.2)) = true ∧
        (sp.1 = 0 ∨ is_delimiter (mem (line.data + (sp.1 - 1))) = true) ∧
        (read_bytes mem (line.data + sp.1) (sp.2 - sp.1) = [] →
          mem (line.data + sp.1) = 34) := by
  obtain ⟨arena1, mem1, spans, hsplit, hptrs, hprops, hbytes⟩ :=
    split_spans arena mem line fuel hsize hnl hdata hfront hroom hfuel
  refine ⟨arena1, mem1, spans, hsplit, ?_, ?_⟩
  · simp only [word_strings, hptrs]
    apply c_strings_map
    intro sp hsp
    obtain ⟨h2, h3, h4, h5, h6, h7⟩ := hprops sp hsp
    have hnotend : ∀ j, sp.1 ≤ j → j < sp.2 → j ∉ spans.map Prod.snd := by
      intro j hj1 hj2 hmem
      obtain ⟨sp2, hsp2, rfl⟩ := List.mem_map.1 hmem
      have h1 := (hprops sp2 hsp2).2.2.1
      rw [h5 sp2.2 hj1 hj2] at h1
      exact Bool.false_ne_true h1
    have hlen : (read_bytes mem (line.data + sp.1) (sp.2 - sp.1)).length = sp.2 - sp.1 :=
      read_bytes_length _ _ _
    apply c_string_of_stored
    · intro j hj
      rw [hlen] at hj
      have e1 : line.data + sp.1 + j = line.data + (sp.1 + j) := by omega
      rw [e1, hbytes (sp.1 + j) (by omega), if_neg (hnotend _ (by omega) (by omega))]
      simp [read_bytes, e1]
    · rw [hlen]
      have e1 : line.data + sp.1 + (sp.2 - sp.1) = line.data + sp.2 := by omega
      rw [e1, hbytes sp.2 h3, if_pos (List.mem_map.2 ⟨sp, hsp, rfl⟩)]
    · intro x hx
      simp only [read_bytes, List.mem_map, List.mem_range] at hx
      obtain ⟨j, hj, rfl⟩ := hx
      have e1 : line.data + sp.1 + j = line.data + (sp.1 + j) := by omega
      rw [e1]
      exact hz _ (by omega)
    · rw [hlen]; omega
  · intro sp hsp
    obtain ⟨h2, h3, h4, h5, h6, h7⟩ := hprops sp hsp
    refine ⟨h2, h3, ?_, h4, h6, ?_⟩
    · intro c hc
      simp only [read_bytes, List.mem_map, List.mem_range] at hc
      obtain ⟨j, hj, rfl⟩ := hc
      have e1 : line.data + sp.1 + j = line.data + (sp.1 + j) := by omega
      rw [e1]
      exact h5 _ (by omega) (by omega)
    · intro hnil
      apply h7
      have := congrArg List.length hnil
      rw [read_bytes_length] at this
      simp only [List.length_nil] at this
      omega

theorem split_words_are_delimited_runs_witness :
    ∃ (arena1 : Arena) (mem1 : Mem) (spans : List (Nat × Nat)),
      split 11 ⟨4096, 4096, 2 ^ 36⟩
          (write_bytes (fun _ => 0) 4096 [101, 99, 104, 111, 32, 34, 104, 105, 34, 10])
          ⟨4096, 10⟩
        = some (arena_end ⟨4096, 4096, 2 ^ 36⟩, arena1, mem1) ∧
      word_strings mem1 11 (arena_end ⟨4096, 4096, 2 ^ 36⟩)
        = some (spans.map (fun sp =>
            read_bytes (write_bytes (fun _ => 0) 4096 [101, 99, 104, 111, 32, 34, 104, 105, 34, 10])
              ((⟨4096, 10⟩ : Line).data + sp.1) (sp.2 - sp.1))) ∧
      ∀ sp ∈ spans, sp.1 ≤ sp.2 ∧ sp.2 < (⟨4096, 10⟩ : Line).size ∧
        (∀ c ∈ read_bytes
            (write_bytes (fun _ => 0) 4096 [101, 99, 104, 111, 32, 34, 104, 105, 34, 10])
            ((⟨4096, 10⟩ : Line).data + sp.1) (sp.2 - sp.1), is_delimiter c = false) ∧
        is_delimiter (write_bytes (fun _ => 0) 4096 [101, 99, 104, 111, 32, 34, 104, 105, 34, 10]
          ((⟨4096, 10⟩ : Line).data + sp.2)) = true ∧
        (sp.1 = 0 ∨ is_delimiter
          (write_bytes (fun _ => 0) 4096 [101, 99, 104, 111, 32, 34, 104, 105, 34, 10]
            ((⟨4096, 10⟩ : Line).data + (sp.1 - 1))) = true) ∧
        (read_bytes (write_bytes (fun _ => 0) 4096 [101, 99, 104, 111, 32, 34, 104, 105, 34, 10])
            ((⟨4096, 10⟩ : Line).data + sp.1) (sp.2 - sp.1) = [] →
          write_bytes (fun _ => 0) 4096 [101, 99, 104, 111, 32, 34, 104, 105, 34, 10]
            ((⟨4096, 10⟩ : Line).data + sp.1) = 34) :=
  split_words_are_delimited_runs ⟨4096, 4096, 2 ^ 36⟩
    (write_bytes (fun _ => 0) 4096 [101, 99, 104, 111, 32, 34, 104, 105, 34, 10]) ⟨4096, 10⟩ 11
    (by decide) (by decide) (by decide) (by decide) (by decide) (by decide) (by decide)

/-- C16: for every line that ends in a newline, `split` changes the bytes of
the line only by storing 0 over the delimiter that ends each word it returns:
the bytes of the line that differ after the call are at most as many as the
words, each of them was a space, tab, newline or quote before the call and is
the byte that ends a word, and the bytes inside the words are unchanged. -/
theorem split_overwrites_one_delimiter_per_word (arena : Arena) (mem : Mem) (line : Line)
    (fuel : Nat) (hsize : 1 ≤ line.size) (hnl : mem (line.data + (line.size - 1)) = 10)
    (hdata : 0 < line.data) (hfront : line.data + line.size ≤ arena.base + arena.used)
    (hroom : arena.base + arena.used + 8 * (line.size + 1) ≤ U64) (hfuel : line.size < fuel) :
    ∃ (arena1 : Arena) (mem1 : Mem) (spans : List (Nat × Nat)),
      split fuel arena mem line = some (arena_end arena, arena1, mem1) ∧
      pointer_list mem1 fuel (arena_end arena) = some (spans.map (fun sp => line.data + sp.1)) ∧
      ((List.range line.size).filter
        (fun i => decide (mem1 (line.data + i) ≠ mem (line.data + i)))).length ≤ spans.length ∧
      (∀ i, i < line.size → mem1 (line.data + i) ≠ mem (line.data + i) →
        is_delimiter (mem (line.data + i)) = true ∧ mem1 (line.data + i) = 0 ∧
        ∃ sp ∈ spans, sp.2 = i) ∧
      (∀ sp ∈ spans, ∀ j, sp.1 ≤ j → j < sp.2 → mem1 (line.data + j) = mem (line.data + j)) := by
  obtain ⟨arena1, mem1, spans, hsplit, hptrs, hprops, hbytes⟩ :=
    split_spans arena mem line fuel hsize hnl hdata hfront hroom hfuel
  have hchanged : ∀ i, i < line.size → mem1 (line.data + i) ≠ mem (line.data + i) →
      i ∈ spans.map Prod.snd := by
    intro i hi hne
    by_contra hmem
    rw [hbytes i hi, if_neg hmem] at hne
    exact hne rfl
  refine ⟨arena1, mem1, spans, hsplit, hptrs, ?_, ?_, ?_⟩
  · have hsub : (List.range line.size).filter
        (fun i => decide (mem1 (line.data + i) ≠ mem (line.data + i))) ⊆ spans.map Prod.snd := by
      intro i hi
      rw [List.mem_filter, List.mem_range] at hi
      exact hchanged i hi.1 (by simpa using hi.2)
    have hnd : ((List.range line.size).filter
        (fun i => decide (mem1 (line.data + i) ≠ mem (line.data + i)))).Nodup :=
      (List.nodup_range _).filter _
    have := (hnd.subperm hsub).length_le
    rwa [List.length_map] at this
  · intro i hi hne
    have hmem := hchanged i hi hne
    obtain ⟨sp, hsp, rfl⟩ := List.mem_map.1 hmem
    refine ⟨(hprops sp hsp).2.2.1, ?_, sp, hsp, rfl⟩
    rw [hbytes sp.2 hi, if_pos hmem]
  · intro sp hsp j hj1 hj2
    have h5 := (hprops sp hsp).2.2.2.1
    have h3 := (hprops sp hsp).2.1
    rw [hbytes j (by omega), if_neg]
    intro hmem
    obtain ⟨sp2, hsp2, hj⟩ := List.mem_map.1 hmem
    have h1 := (hprops sp2 hsp2).2.2.1
    rw [hj, h5 j hj1 hj2] at h1
    exact Bool.false_ne_true h1

theorem split_overwrites_one_delimiter_per_word_witness :
    ∃ (arena1 : Arena) (mem1 : Mem) (spans : List (Nat × Nat)),
      split 8 ⟨4096, 4096, 2 ^ 36⟩ (write_bytes (fun _ => 0) 4096 [108, 115, 32, 34, 120, 34, 10]) ⟨4096, 7⟩
        = some (arena_end ⟨4096, 4096, 2 ^ 36⟩, arena1, mem1) ∧
      pointer_list mem1 8 (arena_end ⟨4096, 4096, 2 ^ 36⟩)
        = some (spans.map (fun sp => (⟨4096, 7⟩ : Line).data + sp.1)) ∧
      ((List.range (⟨4096, 7⟩ : Line).size).filter
        (fun i => decide (mem1 ((⟨4096, 7⟩ : Line).data + i)
          ≠ (write_bytes (fun _ => 0) 4096 [108, 115, 32, 34, 120, 34, 10]) ((⟨4096, 7⟩ : Line).data + i)))).length ≤ spans.length ∧
      (∀ i, i < (⟨4096, 7⟩ : Line).size →
        mem1 ((⟨4096, 7⟩ : Line).data + i) ≠ (write_bytes (fun _ => 0) 4096 [108, 115, 32, 34, 120, 34, 10]) ((⟨4096, 7⟩ : Line).data + i) →
        is_delimiter ((write_bytes (fun _ => 0) 4096 [108, 115, 32, 34, 120, 34, 10]) ((⟨4096, 7⟩ : Line).data + i)) = true ∧
        mem1 ((⟨4096, 7⟩ : Line).data + i) = 0 ∧
        ∃ sp ∈ spans, sp.2 = i) ∧
      (∀ sp ∈ spans, ∀ j, sp.1 ≤ j → j < sp.2 →
        mem1 ((⟨4096, 7⟩ : Line).data + j) = (write_bytes (fun _ => 0) 4096 [108, 115, 32, 34, 120, 34, 10]) ((⟨4096, 7⟩ : Line).data + j)) :=
  split_overwrites_one_delimiter_per_word ⟨4096, 4096, 2 ^ 36⟩ (write_bytes (fun _ => 0) 4096 [108, 115, 32, 34, 120, 34, 10]) ⟨4096, 7⟩ 8
    (by decide) (by decide) (by decide) (by decide) (by decide) (by decide)

/-! ## Facts about the expansion loop on the pointer cells -/

theorem c_string_stored (mem : Mem) (n p : Nat) (w : List Nat)
    (h : c_string mem n p = some w) :
    (∀ j (hj : j < w.length), mem (p + j) = w[j]) ∧ mem (p + w.length) = 0 ∧
    (∀ x ∈ w, x ≠ 0) ∧ w.length < n := by
  induction n generalizing p w with
  | zero => simp [c_string] at h
  | succ n ih =>
    simp only [c_string] at h
    split at h
    · next h0 =>
      injection h with h
      subst h
      exact ⟨fun j hj => by simp at hj, by simpa using h0, fun x hx => by simp at hx, by simp⟩
    · next h0 =>
      cases hc : c_string mem n (p + 1) with
      | none => simp [hc] at h
      | some t =>
        simp only [hc, Option.map_some', Option.some.injEq] at h
        subst h
        obtain ⟨h1, h2, h3, h4⟩ := ih (p + 1) t hc
        refine ⟨?_, ?_, ?_, ?_⟩
        · intro j hj
          cases j with
          | zero => simp
          | succ j =>
            simp only [List.getElem_cons_succ]
            rw [← h1 j (by simpa using hj)]
            congr 1
            omega
        · rw [← h2]
          congr 1
          simp only [List.length_cons]
          omega
        · intro x hx
          rcases List.mem_cons.1 hx with rfl | hx
          · exact h0
          · exact h3 x hx
        · simp only [List.length_cons]; omega

theorem c_string_tail (mem : Mem) (n p a : Nat) (t : List Nat)
    (h : c_string mem n p = some (a :: t)) : c_string mem n (p + 1) = some t := by
  obtain ⟨h1, h2, h3, h4⟩ := c_string_stored mem n p (a :: t) h
  apply c_string_of_stored
  · intro j hj
    have := h1 (j + 1) (by simp; omega)
    simp only [List.getElem_cons_succ] at this
    rw [← this]
    congr 1
    omega
  · rw [← h2]
    congr 1
    simp only [List.length_cons]
    omega
  · intro x hx; exact h3 x (List.mem_cons_of_mem _ hx)
  · simp only [List.length_cons] at h4; omega

theorem c_string_congr (m1 m2 : Mem) (n p : Nat) (w : List Nat)
    (h : c_string m1 n p = some w) (hm : ∀ x, p ≤ x → x ≤ p + w.length → m2 x = m1 x) :
    c_string m2 n p = some w := by
  obtain ⟨h1, h2, h3, h4⟩ := c_string_stored m1 n p w h
  apply c_string_of_stored
  · intro j hj
    rw [hm _ (by omega) (by omega)]
    exact h1 j hj
  · rw [hm _ (by omega) (by omega)]
    exact h2
  · exact h3
  · exact h4

theorem write_u64_twice_other (mem : Mem) (i v1 v2 x : Nat) (h : x < i ∨ i + 8 ≤ x) :
    (if read_u64 (write_u64 mem i v1) i = 0 then write_u64 (write_u64 mem i v1) i v2
      else write_u64 mem i v1) x = mem x := by
  split
  · rw [write_u64_other _ _ _ _ h, write_u64_other _ _ _ _ h]
  · rw [write_u64_other _ _ _ _ h]

theorem write_u64_twice_read (mem : Mem) (i v1 v2 : Nat) (h1 : v1 < 2 ^ 64) (h2 : v2 < 2 ^ 64) :
    read_u64 (if read_u64 (write_u64 mem i v1) i = 0 then write_u64 (write_u64 mem i v1) i v2
      else write_u64 mem i v1) i = if v1 = 0 then v2 else v1 := by
  rw [read_write_u64, Nat.mod_eq_of_lt h1]
  split
  · rw [read_write_u64, Nat.mod_eq_of_lt h2]
  · rw [read_write_u64, Nat.mod_eq_of_lt h1]

/-- The expansion loop on the pointer cells: it ends at the null cell, writes
nothing outside the cells of the argument words, and leaves in each cell the
pointer `expanded_pointer` names. -/
theorem expand_loop_cells (env : Getenv) (n lo : Nat)
    (hempty : env.empty < 2 ^ 64) (hval : ∀ name, env.value name < 2 ^ 64) :
    ∀ (ptrs : List Nat) (ws : List (List Nat)) (i fuel : Nat) (mem : Mem),
      (∀ k (hk : k < ptrs.length), read_u64 mem (i + 8 * k) = ptrs[k]) →
      read_u64 mem (i + 8 * ptrs.length) = 0 →
      (∀ p ∈ ptrs, p ≠ 0) →
      List.Forall₂ (fun p w => c_string mem n p = some w ∧ p + w.length < lo) ptrs ws →
      lo ≤ i → ptrs.length < fuel →
      ∃ mem1, expand_loop env n fuel i mem = some mem1 ∧
        (∀ x, x < i ∨ i + 8 * ptrs.length ≤ x → mem1 x = mem x) ∧
        ∀ k (hk : k < ptrs.length) (hk2 : k < ws.length),
          read_u64 mem1 (i + 8 * k) = expanded_pointer env ptrs[k] ws[k] := by
  intro ptrs
  induction ptrs with
  | nil =>
    intro ws i fuel mem _ hnull _ _ _ hfuel
    obtain ⟨f, rfl⟩ : ∃ f, fuel = f + 1 := ⟨fuel - 1, by simp at hfuel; omega⟩
    simp only [List.length_nil, Nat.mul_zero, Nat.add_zero] at hnull
    refine ⟨mem, by simp [expand_loop, hnull], fun x _ => rfl, fun k hk => by simp at hk⟩
  | cons p ptrs ih =>
    intro ws i fuel mem hcells hnull hpnz hF hlo hfuel
    obtain ⟨f, rfl⟩ : ∃ f, fuel = f + 1 := ⟨fuel - 1, by omega⟩
    cases hF with
    | cons hpw hrest =>
      rename_i w ws
      have h0 := hcells 0 (by simp)
      simp only [Nat.mul_zero, Nat.add_zero, List.getElem_cons_zero] at h0
      have hp : p ≠ 0 := hpnz p (List.mem_cons_self _ _)
      obtain ⟨hs1, hs2, hs3, hs4⟩ := c_string_stored mem n p w hpw.1
      -- the memory after this iteration
      obtain ⟨mem2, hstep, hother, hcell⟩ : ∃ mem2,
          expand_loop env n (f + 1) i mem = expand_loop env n f (i + 8) mem2 ∧
          (∀ x, x < i ∨ i + 8 ≤ x → mem2 x = mem x) ∧
          read_u64 mem2 i = expanded_pointer env p w := by
        cases w with
        | nil =>
          have hmp : ¬ mem p = 36 := by
            have := hs2
            simp only [List.length_nil, Nat.add_zero] at this
            rw [this]; decide
          refine ⟨mem, by simp [expand_loop, h0, hp, hmp], fun x _ => rfl, ?_⟩
          simp [expanded_pointer, h0]
        | cons a t =>
          have hmp : mem p = a := by
            have := hs1 0 (by simp)
            simpa using this
          by_cases ha : a = 36
          · subst ha
            have hname : c_string mem n (p + 1) = some t := c_string_tail mem n p 36 t hpw.1
            refine ⟨(if read_u64 (write_u64 mem i (env.value t)) i = 0
                then write_u64 (write_u64 mem i (env.value t)) i env.empty
                else write_u64 mem i (env.value t)),
              by simp only [expand_loop, h0, hp, hmp, if_true, if_false, hname],
              fun x hx => write_u64_twice_other mem i _ _ x hx, ?_⟩
            rw [write_u64_twice_read mem i _ _ (hval t) hempty]
            simp [expanded_pointer]
          · have hmp2 : ¬ mem p = 36 := by rw [hmp]; exact ha
            refine ⟨mem, by simp [expand_loop, h0, hp, hmp2], fun x _ => rfl, ?_⟩
            simp [expanded_pointer, h0, ha]
      obtain ⟨mem1, hloop, hframe, hcells1⟩ := ih ws (i + 8) f mem2
        (by
          intro k hk
          have := hcells (k + 1) (by simp; omega)
          simp only [List.getElem_cons_succ] at this
          rw [← this]
          have e1 : i + 8 * (k + 1) = i + 8 + 8 * k := by omega
          rw [e1]
          apply read_u64_congr
          intro j hj
          exact hother _ (by omega))
        (by
          simp only [List.length_cons] at hnull
          rw [← hnull]
          have e1 : i + 8 * (ptrs.length + 1) = i + 8 + 8 * ptrs.length := by omega
          rw [e1]
          apply read_u64_congr
          intro j hj
          exact hother _ (by omega))
        (fun q hq => hpnz q (List.mem_cons_of_mem _ hq))
        (by
          refine List.Forall₂.imp ?_ hrest
          intro q v ⟨hq1, hq2⟩
          exact ⟨c_string_congr mem mem2 n q v hq1 (fun x _ hx2 => hother x (by omega)), hq2⟩)
        (by omega) (by simp only [List.length_cons] at hfuel; omega)
      refine ⟨mem1, by rw [hstep]; exact hloop, ?_, ?_⟩
      · intro x hx
        simp only [List.length_cons] at hx
        rw [hframe x (by omega), hother x (by omega)]
      · intro k hk hk2
        cases k with
        | zero =>
          simp only [Nat.mul_zero, Nat.add_zero, List.getElem_cons_zero]
          rw [← hcell]
          apply read_u64_congr
          intro j hj
          exact hframe _ (by omega)
        | succ k =>
          simp only [List.getElem_cons_succ]
          have := hcells1 k (by simpa using hk) (by simpa using hk2)
          rw [← this]
          congr 1
          omega

theorem pointer_list_cells (mem : Mem) (fuel p : Nat) (ps : List Nat)
    (h : pointer_list mem fuel p = some ps) :
    (∀ k (hk : k < ps.length), read_u64 mem (p + 8 * k) = ps[k]) ∧
    read_u64 mem (p + 8 * ps.length) = 0 ∧ (∀ q ∈ ps, q ≠ 0) ∧ ps.length < fuel := by
  induction fuel generalizing p ps with
  | zero => simp [pointer_list] at h
  | succ fuel ih =>
    simp only [pointer_list] at h
    split at h
    · next h0 =>
      injection h with h
      subst h
      exact ⟨fun k hk => by simp at hk, by simpa using h0, fun q hq => by simp at hq, by simp⟩
    · next h0 =>
      cases hc : pointer_list mem fuel (p + 8) with
      | none => simp [hc] at h
      | some t =>
        simp only [hc, Option.map_some', Option.some.injEq] at h
        subst h
        obtain ⟨h1, h2, h3, h4⟩ := ih (p + 8) t hc
        refine ⟨?_, ?_, ?_, ?_⟩
        · intro k hk
          cases k with
          | zero => simp
          | succ k =>
            simp only [List.getElem_cons_succ]
            rw [← h1 k (by simpa using hk)]
            congr 1
            omega
        · rw [← h2]
          congr 1
          simp only [List.length_cons]
          omega
        · intro q hq
          rcases List.mem_cons.1 hq with rfl | hq
          · exact h0
          · exact h3 q hq
        · simp only [List.length_cons]; omega

theorem expanded_pointer_ne_zero (env : Getenv) (p : Nat) (w : List Nat) (hp : p ≠ 0)
    (hnz : env.empty ≠ 0) : expanded_pointer env p w ≠ 0 := by
  unfold expanded_pointer
  split
  · split
    · exact hnz
    · next h => exact h
  · exact hp

/-- C12: environment expansion changes neither the command name nor the shape
of the word sequence.  On the strings: word zero is kept (also when it starts
with `$`), the number of words is kept, and an argument word that does not
start with `$` is kept.  On the memory: when the argument pointers point to
strings that lie below the cells, the loop ends, writes nothing outside the
cells of the argument words (so no byte of a line stored below `words`, and not
the cell of word zero), leaves as many pointers before the null pointer as
there were, and leaves each word that does not start with `$` with the same
pointer and the same string.  The line `$HOME x` with its newline, with
`HOME=/root`, is executed as the command `$HOME` with the words `$HOME`, `x`. -/
theorem expansion_keeps_command_and_shape (env : Getenv) (mem : Mem) (words n fuel : Nat)
    (ptrs : List Nat) (ws : List (List Nat))
    (hptrs : pointer_list mem fuel (words + 8) = some ptrs)
    (hstr : List.Forall₂ (fun p w => c_string mem n p = some w ∧ p + w.length < words) ptrs ws)
    (hnz : env.empty ≠ 0) (hempty : env.empty < 2 ^ 64)
    (hval : ∀ name, env.value name < 2 ^ 64) :
    (∀ (senv : Env) (command : List Nat) (args : List (List Nat)),
      (command :: expand_args senv args).head? = some command ∧
      (command :: expand_args senv args).length = (command :: args).length ∧
      ∀ (k : Nat) (w : List Nat), args[k]? = some w → w.head? ≠ some 36 →
        (expand_args senv args)[k]? = some w) ∧
    (∃ mem1, expand_loop env n fuel (words + 8) mem = some mem1 ∧
      (∀ x, x < words + 8 ∨ words + 8 + 8 * ptrs.length ≤ x → mem1 x = mem x) ∧
      (∀ line : Line, line.data + line.size ≤ words →
        read_bytes mem1 line.data line.size = read_bytes mem line.data line.size) ∧
      read_u64 mem1 words = read_u64 mem words ∧
      pointer_list mem1 fuel (words + 8) = some (List.zipWith (expanded_pointer env) ptrs ws) ∧
      (List.zipWith (expanded_pointer env) ptrs ws).length = ptrs.length ∧
      List.Forall₂ (fun p w => w.head? ≠ some 36 →
        expanded_pointer env p w = p ∧ c_string mem1 n p = some w) ptrs ws) ∧
    (main_iteration ⟨0, false, 0, 0, 0, 1000, 0⟩
        ⟨⟨4096, 0, 2 ^ 36⟩, fun _ => 0,
          [ReadOutcome.data [36, 72, 79, 77, 69, 32, 120, 10]],
          fun name => if name = [72, 79, 77, 69] then some [47, 114, 111, 111, 116] else none⟩).1
      = [Event.prompt [36, 32], Event.fork,
          Event.exec [36, 72, 79, 77, 69] [[36, 72, 79, 77, 69], [120]]] := by
  refine ⟨?_, ?_, by decide⟩
  · intro senv command args
    refine ⟨rfl, by simp [(expand_args_getElem senv args).1], ?_⟩
    intro k w hk hw
    rw [(expand_args_getElem senv args).2 k w hk, if_neg hw]
  · obtain ⟨hcells, hnull, hpnz, hfuel⟩ := pointer_list_cells mem fuel (words + 8) ptrs hptrs
    obtain ⟨mem1, hloop, hframe, hcells1⟩ :=
      expand_loop_cells env n words hempty hval ptrs ws (words + 8) fuel mem hcells hnull hpnz
        hstr (by omega) hfuel
    have hlen : ptrs.length = ws.length := hstr.length_eq
    refine ⟨mem1, hloop, hframe, ?_, ?_, ?_, ?_, ?_⟩
    · intro line hline
      simp only [read_bytes]
      apply List.map_congr_left
      intro j hj
      rw [List.mem_range] at hj
      exact hframe _ (Or.inl (by omega))
    · apply read_u64_congr
      intro j hj
      exact hframe _ (Or.inl (by omega))
    · apply pointer_list_of_cells
      · intro k hk
        simp only [List.length_zipWith] at hk
        rw [List.getElem_zipWith]
        exact hcells1 k (by omega) (by omega)
      · intro q hq
        obtain ⟨k, hk, rfl⟩ := List.getElem_of_mem hq
        simp only [List.length_zipWith] at hk
        rw [List.getElem_zipWith]
        exact expanded_pointer_ne_zero env _ _
          (hpnz _ (List.getElem_mem (by omega))) hnz
      · simp only [List.length_zipWith, ← hlen, Nat.min_self]
        rw [← hnull]
        apply read_u64_congr
        intro j hj
        exact hframe _ (Or.inr (by omega))
      · simp only [List.length_zipWith, ← hlen, Nat.min_self]
        exact hfuel
    · simp [List.length_zipWith, ← hlen]
    · refine List.Forall₂.imp ?_ hstr
      intro p w ⟨h1, h2⟩ hw
      refine ⟨by simp [expanded_pointer, hw], ?_⟩
      exact c_string_congr mem mem1 n p w h1 (fun x _ hx2 => hframe x (Or.inl (by omega)))

theorem expansion_keeps_command_and_shape_witness :
    ∃ mem1, expand_loop ⟨fun name => if name = [72, 79, 77, 69] then 12288 else 0, 12300⟩ 8 3 (8192 + 8)
        (write_u64 (write_u64 (write_u64 (write_bytes (fun _ => 0) 4096
      [101, 99, 104, 111, 0, 36, 72, 79, 77, 69, 0, 120, 0]) 8192 4096) 8200 4101) 8208 4107) = some mem1 ∧
      (∀ x, x < 8192 + 8 ∨ 8192 + 8 + 8 * ([4101, 4107] : List Nat).length ≤ x →
        mem1 x = (write_u64 (write_u64 (write_u64 (write_bytes (fun _ => 0) 4096
      [101, 99, 104, 111, 0, 36, 72, 79, 77, 69, 0, 120, 0]) 8192 4096) 8200 4101) 8208 4107) x) ∧
      (∀ line : Line, line.data + line.size ≤ 8192 →
        read_bytes mem1 line.data line.size = read_bytes (write_u64 (write_u64 (write_u64 (write_bytes (fun _ => 0) 4096
      [101, 99, 104, 111, 0, 36, 72, 79, 77, 69, 0, 120, 0]) 8192 4096) 8200 4101) 8208 4107) line.data line.size) ∧
      read_u64 mem1 8192 = read_u64 (write_u64 (write_u64 (write_u64 (write_bytes (fun _ => 0) 4096
      [101, 99, 104, 111, 0, 36, 72, 79, 77, 69, 0, 120, 0]) 8192 4096) 8200 4101) 8208 4107) 8192 ∧
      pointer_list mem1 3 (8192 + 8)
        = some (List.zipWith (expanded_pointer ⟨fun name => if name = [72, 79, 77, 69] then 12288 else 0, 12300⟩) [4101, 4107] [[36, 72, 79, 77, 69], [120]]) ∧
      (List.zipWith (expanded_pointer ⟨fun name => if name = [72, 79, 77, 69] then 12288 else 0, 12300⟩) [4101, 4107] [[36, 72, 79, 77, 69], [120]]).length = ([4101, 4107] : List Nat).length ∧
      List.Forall₂ (fun p w => w.head? ≠ some 36 →
        expanded_pointer ⟨fun name => if name = [72, 79, 77, 69] then 12288 else 0, 12300⟩ p w = p ∧ c_string mem1 8 p = some w) [4101, 4107] [[36, 72, 79, 77, 69], [120]] :=
  (expansion_keeps_command_and_shape ⟨fun name => if name = [72, 79, 77, 69] then 12288 else 0, 12300⟩
    (write_u64 (write_u64 (write_u64 (write_bytes (fun _ => 0) 4096
      [101, 99, 104, 111, 0, 36, 72, 79, 77, 69, 0, 120, 0]) 8192 4096) 8200 4101) 8208 4107) 8192 8 3 [4101, 4107] [[36, 72, 79, 77, 69], [120]]
    (by decide)
    (List.Forall₂.cons ⟨by decide, by decide⟩
      (List.Forall₂.cons ⟨by decide, by decide⟩ List.Forall₂.nil))
    (by decide) (by decide)
    (fun name => by
      show (if name = [72, 79, 77, 69] then 12288 else 0) < 2 ^ 64
      split <;> decide)).2.1

/-- The branches of the loop that the exit-status variable survives: a failed
`fork`, and a child that was waited for and did not exit normally. -/
theorem exit_status_kept (sys : Sys) (s : Shell) :
    (∀ (line : Line) (s1 : Shell), sys.fork_result = -1 →
      (dispatch sys s line).2 = Step.next s1 → s1.env = s.env) ∧
    (∀ command : List Nat, sys.waitpid_result ≠ -1 → WIFEXITED sys.waitpid_status = false →
      wait_child sys s command = ([Event.wait], Step.next s)) := by
  constructor
  · intro line s1 hfork h
    unfold dispatch at h
    split at h
    · simp at h
    · simp only at h
      split at h
      · simp only [Step.next.injEq] at h
        rw [← h]
      · split at h
        · simp at h
        · simp at h
        · simp only [hfork, if_true, Step.next.injEq] at h
          rw [← h]
  · intro command hok habn
    simp [wait_child, hok, habn]

theorem c_strings_zipWith (mem : Mem) (n : Nat) (f : Nat → List Nat → Nat)
    (g : List Nat → List Nat) (ptrs : List Nat) (ws : List (List Nat))
    (h : List.Forall₂ (fun p w => c_string mem n (f p w) = some (g w)) ptrs ws) :
    c_strings mem n (List.zipWith f ptrs ws) = some (ws.map g) := by
  induction h with
  | nil => rfl
  | cons hpw _ ih => simp [c_strings, hpw, ih]

theorem expand_args_eq_map (env : Env) (ws : List (List Nat)) :
    expand_args env ws = ws.map (fun w =>
      if w.head? = some 36 then (env w.tail).getD [] else w) := by
  induction ws with
  | nil => rfl
  | cons w ws ih =>
    simp only [expand_args, List.map_cons, ih, List.cons.injEq, and_true]
    cases env w.tail <;> rfl

/-- The loop on the pointer cells does what the loop on the strings says: when
`getenv` hands out pointers to the values of the environment (and `NULL` for
unset names), and these strings, the literal `""` and the argument strings lie
below the cells, the strings of the argument words after `expand_loop` are
`expand_args` of the strings before. -/
theorem expand_loop_refines (env : Getenv) (senv : Env) (mem : Mem) (words n fuel : Nat)
    (ptrs : List Nat) (ws : List (List Nat))
    (hptrs : pointer_list mem fuel (words + 8) = some ptrs)
    (hstr : List.Forall₂ (fun p w => c_string mem n p = some w ∧ p + w.length < words) ptrs ws)
    (hnz : env.empty ≠ 0) (hempty : env.empty < 2 ^ 64)
    (hval : ∀ name, env.value name < 2 ^ 64)
    (hlit : c_string mem n env.empty = some [] ∧ env.empty < words)
    (henv : ∀ name, (senv name = none ∧ env.value name = 0) ∨
      ∃ v, senv name = some v ∧ env.value name ≠ 0 ∧
        c_string mem n (env.value name) = some v ∧ env.value name + v.length < words) :
    ∃ mem1 ptrs1, expand_loop env n fuel (words + 8) mem = some mem1 ∧
      pointer_list mem1 fuel (words + 8) = some ptrs1 ∧
      c_strings mem1 n ptrs1 = some (expand_args senv ws) := by
  obtain ⟨hcells, hnull, hpnz, hfuel⟩ := pointer_list_cells mem fuel (words + 8) ptrs hptrs
  obtain ⟨mem1, hloop, hframe, hcells1⟩ :=
    expand_loop_cells env n words hempty hval ptrs ws (words + 8) fuel mem hcells hnull hpnz
      hstr (by omega) hfuel
  have hlen : ptrs.length = ws.length := hstr.length_eq
  have hkeep : ∀ p w, c_string mem n p = some w → p + w.length < words →
      c_string mem1 n p = some w :=
    fun p w h1 h2 => c_string_congr mem mem1 n p w h1 (fun x _ hx2 => hframe x (Or.inl (by omega)))
  refine ⟨mem1, List.zipWith (expanded_pointer env) ptrs ws, hloop, ?_, ?_⟩
  · apply pointer_list_of_cells
    · intro k hk
      simp only [List.length_zipWith] at hk
      rw [List.getElem_zipWith]
      exact hcells1 k (by omega) (by omega)
    · intro q hq
      obtain ⟨k, hk, rfl⟩ := List.getElem_of_mem hq
      simp only [List.length_zipWith] at hk
      rw [List.getElem_zipWith]
      exact expanded_pointer_ne_zero env _ _ (hpnz _ (List.getElem_mem (by omega))) hnz
    · simp only [List.length_zipWith, ← hlen, Nat.min_self]
      rw [← hnull]
      apply read_u64_congr
      intro j hj
      exact hframe _ (Or.inr (by omega))
    · simp only [List.length_zipWith, ← hlen, Nat.min_self]
      exact hfuel
  · rw [expand_args_eq_map]
    apply c_strings_zipWith
    refine List.Forall₂.imp ?_ hstr
    intro p w ⟨h1, h2⟩
    by_cases hw : w.head? = some 36
    · simp only [expanded_pointer, hw, if_true]
      rcases henv w.tail with ⟨hs, hv⟩ | ⟨v, hs, hv, hc, hb⟩
      · rw [hs, hv]
        simp only [if_true, Option.getD_none]
        exact hkeep _ _ hlit.1 (by simpa using hlit.2)
      · rw [hs]
        simp only [hv, if_false, Option.getD_some]
        exact hkeep _ _ hc hb
    · simp only [expanded_pointer, hw, if_false]
      exact hkeep _ _ h1 h2

/-! ## Bytes after the newline and the next call of `read_line` -/

theorem write_bytes_agree (m1 m2 : Mem) (d buf : Nat) (bs : List Nat)
    (h : ∀ a, d ≤ a → m1 a = m2 a) :
    ∀ a, d ≤ a → write_bytes m1 buf bs a = write_bytes m2 buf bs a := by
  intro a ha
  simp only [write_bytes]
  split
  · rfl
  · exact h a ha

theorem read_looped_agree (buf count d : Nat) (m1 m2 : Mem) (input : List ReadOutcome)
    (h : ∀ a, d ≤ a → m1 a = m2 a) :
    (read_looped buf count m1 input).1 = (read_looped buf count m2 input).1 ∧
    (read_looped buf count m1 input).2.2 = (read_looped buf count m2 input).2.2 ∧
    ∀ a, d ≤ a → (read_looped buf count m1 input).2.1 a = (read_looped buf count m2 input).2.1 a := by
  induction input with
  | nil => exact ⟨rfl, rfl, h⟩
  | cons o rest ih =>
    cases o with
    | interrupted => simpa [read_looped] using ih
    | failed => exact ⟨rfl, rfl, h⟩
    | data bs => exact ⟨rfl, rfl, write_bytes_agree m1 m2 d buf _ h⟩

theorem find_newline_agree (m1 m2 : Mem) (data : Nat) (h : ∀ a, data ≤ a → m1 a = m2 a)
    (n i : Nat) : find_newline m1 data n i = find_newline m2 data n i := by
  induction n generalizing i with
  | zero => rfl
  | succ n ih => simp only [find_newline, h (data + i) (by omega), ih]

theorem read_bytes_agree (m1 m2 : Mem) (data n : Nat) (h : ∀ a, data ≤ a → m1 a = m2 a) :
    read_bytes m1 data n = read_bytes m2 data n := by
  simp only [read_bytes]
  apply List.map_congr_left
  intro i _
  exact h _ (by omega)

/-- The loop of `read_line` reads and writes memory from `line.data` on only:
two memories that agree there give the same return. -/
theorem read_line_loop_agree (c fuel : Nat) (s : ReadState) (mem2 : Mem)
    (h : ∀ a, s.line.data ≤ a → s.mem a = mem2 a) :
    returned_line (read_line_loop c fuel s)
      = returned_line (read_line_loop c fuel { s with mem := mem2 }) := by
  induction fuel generalizing s mem2 with
  | zero => rfl
  | succ fuel ih =>
    obtain ⟨h1, h2, h3⟩ := read_looped_agree s.line.data c s.line.data s.mem mem2 s.input h
    rcases hr : read_looped s.line.data c s.mem s.input with ⟨r, m, rest⟩
    rcases hr2 : read_looped s.line.data c mem2 s.input with ⟨r2, m2, rest2⟩
    rw [hr, hr2] at h1 h2 h3
    simp only at h1 h2 h3
    subst h1 h2
    simp only [read_line_loop, hr, hr2]
    split
    · rfl
    · split
      · simp only [returned_line, read_bytes_agree m m2 s.line.data s.line.size h3]
      · rw [find_newline_agree m m2 s.line.data h3]
        split
        · simp only [returned_line, read_bytes_agree m m2 s.line.data _ h3]
        · exact ih _ m2 h3

theorem read_looped_interrupted (buf count : Nat) (mem : Mem) (k : Nat)
    (input : List ReadOutcome) :
    read_looped buf count mem (List.replicate k ReadOutcome.interrupted ++ input)
      = read_looped buf count mem input := by
  induction k with
  | zero => rfl
  | succ k ih => simpa [List.replicate_succ, read_looped] using ih

theorem read_line_interrupted (fuel : Nat) (arena : Arena) (c : Nat) (mem : Mem) (k : Nat)
    (input : List ReadOutcome) :
    read_line (fuel + 1) arena c mem (List.replicate k ReadOutcome.interrupted ++ input)
      = read_line (fuel + 1) arena c mem input := by
  simp only [read_line, read_line_loop, read_looped_interrupted]

/-- C5 (amended): when the first read of a call of `read_line` that delivers
anything (reads that were interrupted are retried) delivers a block of at most
`read_size` bytes with a newline in it, the call returns the bytes up to and
including the first newline.  The bytes the same read delivered after that
newline are handed to no later call: as long as `used` does not wrap around,
the next call of `read_line`, whatever its budget and whatever the later reads
deliver, returns the same Line with the same bytes, the same arena and the same
rest of the stream as it would had any other bytes `post2` (or none) followed
the newline; and when the stream has ended it returns a Line of size zero at
the new arena frontier. -/
theorem read_line_drops_bytes_after_newline (arena : Arena) (mem : Mem) (c : Nat)
    (pre post : List Nat) (input : List ReadOutcome) (fuel k : Nat) (hpre : 10 ∉ pre)
    (hlen : (pre ++ 10 :: post).length ≤ c) :
    read_line (fuel + 1) arena c mem
        (List.replicate k ReadOutcome.interrupted ++ ReadOutcome.data (pre ++ 10 :: post) :: input)
      = Ret.ok (⟨arena_end arena, pre.length + 1⟩, arena_align (arena_push arena c).2,
          write_bytes mem (arena_end arena) (pre ++ 10 :: post), input) ∧
    read_bytes (write_bytes mem (arena_end arena) (pre ++ 10 :: post)) (arena_end arena)
        (pre.length + 1) = pre ++ [10] ∧
    (arena.used + c + 15 < U64 →
      ∀ (post2 : List Nat) (f : Nat) (later : List ReadOutcome),
        (pre ++ 10 :: post2).length ≤ c →
        returned_line (read_line f (arena_align (arena_push arena c).2) c
            (write_bytes mem (arena_end arena) (pre ++ 10 :: post)) later)
          = returned_line (read_line f (arena_align (arena_push arena c).2) c
              (write_bytes mem (arena_end arena) (pre ++ 10 :: post2)) later)) ∧
    (input = [] → ∀ f,
      read_line (f + 1) (arena_align (arena_push arena c).2) c
          (write_bytes mem (arena_end arena) (pre ++ 10 :: post)) input
        = Ret.ok (⟨arena_end (arena_align (arena_push arena c).2), 0⟩,
            arena_align (arena_push (arena_align (arena_push arena c).2) c).2,
            write_bytes mem (arena_end arena) (pre ++ 10 :: post), [])) := by
  refine ⟨?_, ?_, ?_, ?_⟩
  · rw [read_line_interrupted]
    exact read_line_first_newline arena mem c pre post input fuel hpre hlen
  · apply List.ext_getElem
    · simp [read_bytes]
    · intro i h1 h2
      have hi : i < (pre ++ 10 :: post).length := by
        simp only [List.length_append, List.length_cons, List.length_nil] at h2 ⊢; omega
      simp only [read_bytes, List.getElem_map, List.getElem_range]
      rw [write_bytes_at _ _ _ _ hi, List.getD_eq_getElem _ _ hi]
      by_cases hp : i < pre.length
      · rw [List.getElem_append_left hp, List.getElem_append_left hp]
      · have hip : i = pre.length := by
          simp only [List.length_append, List.length_cons, List.length_nil] at h2; omega
        subst hip
        rw [List.getElem_append_right (le_refl _), List.getElem_append_right (le_refl _)]
        simp
  · intro hwrap post2 f later hlen2
    obtain ⟨hb, hu, _⟩ := push_align_used arena c hwrap
    have hagree : ∀ a, arena_end (arena_align (arena_push arena c).2) ≤ a →
        write_bytes mem (arena_end arena) (pre ++ 10 :: post) a
          = write_bytes mem (arena_end arena) (pre ++ 10 :: post2) a := by
      intro a ha
      simp only [arena_end] at ha
      rw [hb] at ha
      rw [write_bytes_other _ _ _ _ (Or.inr (by simp only [arena_end]; omega)),
        write_bytes_other _ _ _ _ (Or.inr (by simp only [arena_end]; omega))]
    exact read_line_loop_agree c f
      { arena := arena_align (arena_push arena c).2,
        mem := write_bytes mem (arena_end arena) (pre ++ 10 :: post), input := later,
        line := { data := arena_end (arena_align (arena_push arena c).2), size := 0 },
        result := c }
      (write_bytes mem (arena_end arena) (pre ++ 10 :: post2)) hagree
  · intro hin f
    subst hin
    exact read_line_at_eof _ _ c f [] rfl

theorem read_line_drops_bytes_after_newline_witness :
    read_line 2 ⟨4096, 0, 2 ^ 36⟩ 4096 (fun _ => 0)
        (List.replicate 1 ReadOutcome.interrupted
          ++ ReadOutcome.data ([97] ++ 10 :: [98, 10]) :: [])
      = Ret.ok (⟨arena_end ⟨4096, 0, 2 ^ 36⟩, [97].length + 1⟩,
          arena_align (arena_push ⟨4096, 0, 2 ^ 36⟩ 4096).2,
          write_bytes (fun _ => 0) (arena_end ⟨4096, 0, 2 ^ 36⟩) ([97] ++ 10 :: [98, 10]), []) ∧
    returned_line (read_line 2 (arena_align (arena_push ⟨4096, 0, 2 ^ 36⟩ 4096).2) 4096
        (write_bytes (fun _ => 0) (arena_end ⟨4096, 0, 2 ^ 36⟩) ([97] ++ 10 :: [98, 10]))
        [ReadOutcome.data [99, 10]])
      = returned_line (read_line 2 (arena_align (arena_push ⟨4096, 0, 2 ^ 36⟩ 4096).2) 4096
          (write_bytes (fun _ => 0) (arena_end ⟨4096, 0, 2 ^ 36⟩) ([97] ++ 10 :: []))
          [ReadOutcome.data [99, 10]]) ∧
    read_line (0 + 1) (arena_align (arena_push ⟨4096, 0, 2 ^ 36⟩ 4096).2) 4096
        (write_bytes (fun _ => 0) (arena_end ⟨4096, 0, 2 ^ 36⟩) ([97] ++ 10 :: [98, 10])) []
      = Ret.ok (⟨arena_end (arena_align (arena_push ⟨4096, 0, 2 ^ 36⟩ 4096).2), 0⟩,
          arena_align (arena_push (arena_align (arena_push ⟨4096, 0, 2 ^ 36⟩ 4096).2) 4096).2,
          write_bytes (fun _ => 0) (arena_end ⟨4096, 0, 2 ^ 36⟩) ([97] ++ 10 :: [98, 10]), []) :=
  ⟨(read_line_drops_bytes_after_newline ⟨4096, 0, 2 ^ 36⟩ (fun _ => 0) 4096 [97] [98, 10] [] 1 1
      (by decide) (by decide)).1,
    (read_line_drops_bytes_after_newline ⟨4096, 0, 2 ^ 36⟩ (fun _ => 0) 4096 [97] [98, 10] [] 1 1
      (by decide) (by decide)).2.2.1 (by decide) [] 2 [ReadOutcome.data [99, 10]] (by decide),
    (read_line_drops_bytes_after_newline ⟨4096, 0, 2 ^ 36⟩ (fun _ => 0) 4096 [97] [98, 10] [] 1 1
      (by decide) (by decide)).2.2.2 rfl 0⟩

end VShell
